import Mathlib

/-! # skipfilter: a skip list with a cache of per-filter id bitmaps

A shallow embedding of `skipfilter.go` and a verification of its contract.

The three libraries the package is built on are modelled by what they store:

* `skiplist.SkipList` (github.com/MauriceGit/skiplist): the list of its elements in
  key order; a node pointer is a position in that list, and `Next` of the last node is
  the first node, as in the library.
* `roaring64.Bitmap`: the ascending list of its members.
* `otter.Cache`: an association list; an eviction is a step of the environment
  (`Op.evict`), which may remove any entry between two calls.

Go maps are association lists, and the values and the filter keys have a decidable
equality, as the keys of a Go map have. Locks are left out: the calls are sequential
here. Identifiers are naturals; `uint64` arithmetic is written with an explicit
`% 2 ^ 64` and the `float64` key of the skip list with an explicit rounding
(`toFloat64`). The executions considered (`Reachable`) make fewer than `2 ^ 53` calls
of `Add`: below that bound the allocator does not wrap and every identifier is its own
key, so that the order of the keys is the order of the identifiers.
-/

namespace Skipfilter

/-! ## Machine numbers -/

/-- The number of `uint64` values. -/
def uint64Size : Nat := 2 ^ 64

/-- Identifiers below this bound are their own `float64` key. -/
def idLimit : Nat := 2 ^ 53

/-- The value of the Go conversion `float64(n)` for a `uint64` `n`: round to nearest
with a 53 bit significand, ties to even. Every such value is a natural number. -/
def toFloat64 (n : Nat) : Nat :=
  if n < 2 ^ 53 then n
  else
    let e := Nat.log2 n - 52
    let q := n / 2 ^ e
    let r := n % 2 ^ e
    let half := 2 ^ (e - 1)
    if r < half then q * 2 ^ e
    else if half < r then (q + 1) * 2 ^ e
    else if q % 2 = 0 then q * 2 ^ e
    else (q + 1) * 2 ^ e

/-! ## Elements -/

/-- The `entry[V]` struct: an identifier and the value it was given to. -/
structure entry (V : Type) where
  id : Nat
  val : V
deriving DecidableEq, Repr

/-- The method `ExtractKey`: `float64(e.id)`. -/
def entry.ExtractKey {V : Type} (e : entry V) : Nat := toFloat64 e.id

/-! ## The ordered index (skiplist.SkipList) -/

/-- The elements of the skip list, in the order of its bottom level. -/
abbrev SkipList (V : Type) := List (entry V)

/-- The call `skiplist.New()`. -/
def SkipList.New {V : Type} : SkipList V := []

/-- The method `Insert`: the element goes before the first element with a greater key. -/
def SkipList.Insert {V : Type} : SkipList V → entry V → SkipList V
  | [], e => [e]
  | x :: xs, e =>
    if e.ExtractKey < x.ExtractKey then e :: x :: xs else x :: SkipList.Insert xs e

/-- The method `Delete`, given the key of its argument: the first element with that key
is unlinked; nothing happens when there is none. -/
def SkipList.Delete {V : Type} : SkipList V → Nat → SkipList V
  | [], _ => []
  | x :: xs, key => if x.ExtractKey = key then xs else x :: SkipList.Delete xs key

/-- The method `Find`, given the key of its argument: the value of the first node with
that key (`ok` is false when there is none). -/
def SkipList.Find {V : Type} : SkipList V → Nat → Option (entry V)
  | [], _ => none
  | x :: xs, key => if x.ExtractKey = key then some x else SkipList.Find xs key

/-- The method `FindGreaterOrEqual`, given the key of its argument: the position of the
first node whose key is at least that key (`ok` is false when there is none). -/
def SkipList.FindGreaterOrEqual {V : Type} : SkipList V → Nat → Option Nat
  | [], _ => none
  | x :: xs, key =>
    if key ≤ x.ExtractKey then some 0
    else (SkipList.FindGreaterOrEqual xs key).map (· + 1)

/-- The method `Next`: the following node, and the first node after the last one. -/
def SkipList.Next {V : Type} (l : SkipList V) (pos : Nat) : Option Nat :=
  if l.length = 0 then none
  else if pos + 1 < l.length then some (pos + 1)
  else some 0

/-- The method `GetValue` of the node a pointer refers to; `none` for a nil pointer. -/
def SkipList.GetValue {V : Type} (l : SkipList V) (el : Option Nat) : Option (entry V) :=
  match el with
  | none => none
  | some pos => l[pos]?

/-- The method `GetNodeCount`. -/
def SkipList.GetNodeCount {V : Type} (l : SkipList V) : Nat := l.length

/-! ## Bitmaps (roaring64.Bitmap) -/

/-- The members of a bitmap, ascending. -/
abbrev Bitmap := List Nat

/-- The method `Add`. -/
def Bitmap.Add : Bitmap → Nat → Bitmap
  | [], x => [x]
  | y :: s, x =>
    if x < y then x :: y :: s
    else if x = y then y :: s
    else y :: Bitmap.Add s x

/-- The method `Remove`. -/
def Bitmap.Remove (s : Bitmap) (x : Nat) : Bitmap := s.filter (fun y => decide (y ≠ x))

/-- The union of two bitmaps. -/
def Bitmap.Or (a b : Bitmap) : Bitmap := b.foldl Bitmap.Add a

/-- The function `roaring64.ParOr`: the union of the given bitmaps (the degree of
parallelism does not change the result). -/
def ParOr (sets : List Bitmap) : Bitmap := sets.foldl Bitmap.Or []

/-! ## Maps -/

/-- Lookup in an association list: the first binding of the key. -/
def mapGet {K A : Type} [DecidableEq K] : List (K × A) → K → Option A
  | [], _ => none
  | (k', a) :: m, k => if k = k' then some a else mapGet m k

/-- Assignment `m[k] = a`: the binding of `k` is replaced, or added when there is none. -/
def mapSet {K A : Type} [DecidableEq K] : List (K × A) → K → A → List (K × A)
  | [], k, a => [(k, a)]
  | (k', a') :: m, k, a => if k = k' then (k, a) :: m else (k', a') :: mapSet m k a

/-- The builtin `delete(m, k)`. -/
def mapDelete {K A : Type} [DecidableEq K] (m : List (K × A)) (k : K) : List (K × A) :=
  m.filter (fun p => decide (p.1 ≠ k))

/-! ## The filter cache (otter.Cache) -/

/-- The `filter` struct: the high-water mark `i` and the set of matching ids. -/
structure filter where
  i : Nat
  set : Bitmap
deriving DecidableEq, Repr

/-- The cache of filters with the maximum size it was made with. -/
structure Cache (F : Type) where
  maximumSize : Int
  entries : List (F × filter)

/-- The method `GetIfPresent`. -/
def Cache.GetIfPresent {F : Type} [DecidableEq F] (c : Cache F) (k : F) : Option filter :=
  mapGet c.entries k

/-- The method `Set`. -/
def Cache.Set {F : Type} [DecidableEq F] (c : Cache F) (k : F) (f : filter) : Cache F :=
  { c with entries := mapSet c.entries k f }

/-- An eviction: the cache drops the entry of a key. -/
def Cache.evict {F : Type} [DecidableEq F] (c : Cache F) (k : F) : Cache F :=
  { c with entries := mapDelete c.entries k }

/-! ## SkipFilter -/

/-- The `SkipFilter` struct, without its lock. -/
structure SkipFilter (V F : Type) where
  i : Nat
  idx : List (V × Nat)
  list : SkipList V
  cache : Cache F
  test : V → F → Bool

section Model
variable {V F : Type} [DecidableEq V] [DecidableEq F]

/-- The function `New`. -/
def New (test : V → F → Bool) (maximumSize : Int) : SkipFilter V F :=
  { i := 0, idx := [], list := SkipList.New,
    cache := { maximumSize := maximumSize, entries := [] }, test := test }

/-- The method `Add`. -/
def Add (sf : SkipFilter V F) (value : V) : SkipFilter V F :=
  { sf with
    list := SkipList.Insert sf.list { id := sf.i, val := value }
    idx := mapSet sf.idx value sf.i
    i := (sf.i + 1) % uint64Size }

/-- The method `Remove`. -/
def Remove (sf : SkipFilter V F) (value : V) : SkipFilter V F :=
  match mapGet sf.idx value with
  | some id =>
    { sf with
      list := SkipList.Delete sf.list (toFloat64 id)
      idx := mapDelete sf.idx value }
  | none => sf

/-- The method `Len`. -/
def Len (sf : SkipFilter V F) : Nat := SkipList.GetNodeCount sf.list

/-- The loop of `Walk`, one iteration per unit of fuel: `el` is the node pointer,
`visited` the elements the callback has been called on so far. The callback may be a
closure with a state of its own: its answer is a function of the values it was called
on before in this call and of the current value. `none` when the fuel runs out. -/
def walkLoop (callback : List V → V → Bool) (l : SkipList V) :
    Nat → Option Nat → Bool → Nat → Nat → List (entry V) → Option (Nat × List (entry V))
  | 0, _, _, _, _, _ => none
  | fuel + 1, el, first, prev, id, visited =>
    match SkipList.GetValue l el with
    | none => some (id, visited)
    | some e =>
      if !first && e.id ≤ prev then some ((prev + 1) % uint64Size, visited)
      else if !callback (visited.map entry.val) e.val then
        some ((e.id + 1) % uint64Size, visited ++ [e])
      else
        walkLoop callback l fuel (el.bind (SkipList.Next l)) false e.id e.id (visited ++ [e])

/-- The method `Walk`: the returned id and the elements the callback was called on, in
call order. -/
def Walk (sf : SkipFilter V F) (start : Nat) (callback : List V → V → Bool) :
    Option (Nat × List (entry V)) :=
  walkLoop callback sf.list (sf.list.length + 1)
    (SkipList.FindGreaterOrEqual sf.list (toFloat64 start)) true 0 start []

/-- The scan loop of `getFilter`, one iteration per unit of fuel. -/
def scanLoop (test : V → F → Bool) (k : F) (l : SkipList V) :
    Nat → Option Nat → Bool → Nat → Bitmap → Option Bitmap
  | 0, _, _, _, _ => none
  | fuel + 1, el, first, prev, set =>
    match SkipList.GetValue l el with
    | none => some set
    | some e =>
      if !first && e.id ≤ prev then some set
      else
        scanLoop test k l fuel (el.bind (SkipList.Next l)) false e.id
          (if test e.val k then Bitmap.Add set e.id else set)

/-- The method `getFilter`: the state with the updated cache, and the filter the returned
pointer refers to. -/
def getFilter (sf : SkipFilter V F) (k : F) : Option (SkipFilter V F × filter) :=
  let f : filter :=
    match sf.cache.GetIfPresent k with
    | some val => val
    | none => { i := 0, set := [] }
  let cache : Cache F :=
    match sf.cache.GetIfPresent k with
    | some _ => sf.cache
    | none => sf.cache.Set k f
  if f.i < sf.i then
    match scanLoop sf.test k sf.list (sf.list.length + 1)
        (SkipList.FindGreaterOrEqual sf.list (toFloat64 f.i)) true 0 f.set with
    | none => none
    | some set =>
      some ({ sf with cache := cache.Set k { i := sf.i, set := set } },
            { i := sf.i, set := set })
  else some ({ sf with cache := cache }, f)

/-- The inner loop of `getValues` over one buffer of ids. -/
def getValuesBatch (l : SkipList V) :
    List Nat → List V × List Nat → List V × List Nat
  | [], acc => acc
  | id :: ids, (values, notfound) =>
    match SkipList.Find l (toFloat64 id) with
    | some e => getValuesBatch l ids (values ++ [e.val], notfound)
    | none => getValuesBatch l ids (values, notfound ++ [id])

/-- The outer loop of `getValues`: `iter` holds the ids the iterator has not returned
yet and `NextMany` moves up to 512 of them into the buffer. -/
def getValuesLoop (l : SkipList V) :
    Nat → List Nat → List V × List Nat → Option (List V × List Nat)
  | 0, _, _ => none
  | fuel + 1, iter, acc =>
    let idBuf := iter.take 512
    if 0 < idBuf.length then
      getValuesLoop l fuel (iter.drop 512) (getValuesBatch l idBuf acc)
    else some acc

/-- The method `getValues`: the values found and the ids not found. -/
def getValues (sf : SkipFilter V F) (set : Bitmap) : Option (List V × List Nat) :=
  getValuesLoop sf.list (set.length + 1) set ([], [])

/-- The first loop of `MatchAny`: `getFilter` for each key in turn. -/
def getFilters : SkipFilter V F → List F → Option (SkipFilter V F × List filter)
  | sf, [] => some (sf, [])
  | sf, k :: ks =>
    match getFilter sf k with
    | none => none
    | some (sf1, f) =>
      match getFilters sf1 ks with
      | none => none
      | some (sf2, fs) => some (sf2, f :: fs)

/-- The clean-up loop of `MatchAny`: every id not found is removed from the set of every
filter consulted. The filters are the cache entries of the keys. -/
def cleanup (c : Cache F) (ks : List F) (notfound : List Nat) : Cache F :=
  ks.foldl (fun c k =>
    match c.GetIfPresent k with
    | some f => c.Set k { f with set := notfound.foldl Bitmap.Remove f.set }
    | none => c) c

/-- The ids `MatchAny` does not find in the ordered index (`notfound`). -/
def staleIds (sf : SkipFilter V F) (filterKeys : List F) : Option (List Nat) :=
  match getFilters sf filterKeys with
  | none => none
  | some (sf1, filters) =>
    (getValues sf1 (ParOr (filters.map filter.set))).map Prod.snd

/-- The method `MatchAny`: the state with the updated cache, and the values returned. -/
def MatchAny (sf : SkipFilter V F) (filterKeys : List F) :
    Option (SkipFilter V F × List V) :=
  match getFilters sf filterKeys with
  | none => none
  | some (sf1, filters) =>
    match getValues sf1 (ParOr (filters.map filter.set)) with
    | none => none
    | some (values, notfound) =>
      if 0 < notfound.length then
        some ({ sf1 with cache := cleanup sf1.cache filterKeys notfound }, values)
      else some (sf1, values)

/-! ## Executions -/

/-- A call on a `SkipFilter`, or a step that happens inside or around the calls:
`getFilter` is the step `MatchAny` takes for each key, `evict` is the cache dropping
an entry. -/
inductive Op (V F : Type) where
  | add (value : V)
  | remove (value : V)
  | matchAny (filterKeys : List F)
  | walk (start : Nat) (callback : List V → V → Bool)
  | getFilter (k : F)
  | evict (k : F)

/-- The state after one step; `none` when the step does not return. -/
def step (sf : SkipFilter V F) : Op V F → Option (SkipFilter V F)
  | .add value => some (Add sf value)
  | .remove value => some (Remove sf value)
  | .matchAny filterKeys => (MatchAny sf filterKeys).map Prod.fst
  | .walk start callback => (Walk sf start callback).map (fun _ => sf)
  | .getFilter k => (getFilter sf k).map Prod.fst
  | .evict k => some { sf with cache := sf.cache.evict k }

/-- The state after a sequence of steps. -/
def run : SkipFilter V F → List (Op V F) → Option (SkipFilter V F)
  | sf, [] => some sf
  | sf, op :: ops =>
    match step sf op with
    | none => none
    | some sf1 => run sf1 ops

/-- The number of `Add` calls in a sequence of steps. -/
def countAdds : List (Op V F) → Nat
  | [] => 0
  | .add _ :: ops => countAdds ops + 1
  | _ :: ops => countAdds ops

/-- The identifiers the `Add` calls of a sequence of steps give to their elements, in
call order: each `Add` uses the allocator of the state it is called in. -/
def assignedIds : SkipFilter V F → List (Op V F) → List Nat
  | _, [] => []
  | sf, op :: ops =>
    match step sf op with
    | none => []
    | some sf1 =>
      match op with
      | .add _ => sf.i :: assignedIds sf1 ops
      | _ => assignedIds sf1 ops

/-- The states of the executions considered: those reached from `New` by a sequence of
steps with fewer than `idLimit` calls of `Add`, so that the allocator does not overflow
and every identifier is its own key. -/
def Reachable (test : V → F → Bool) (maximumSize : Int) (sf : SkipFilter V F) : Prop :=
  ∃ ops : List (Op V F), countAdds ops < idLimit ∧ run (New test maximumSize) ops = some sf

/-- No call of `Add` in the sequence of steps, run from `sf`, is given a value that an
element of the ordered index has at that moment. -/
def freshAdds : SkipFilter V F → List (Op V F) → Prop
  | _, [] => True
  | sf, op :: ops =>
    (match op with
      | .add value => ∀ e ∈ sf.list, e.val ≠ value
      | _ => True) ∧
    (match step sf op with
      | some sf1 => freshAdds sf1 ops
      | none => True)

/-- The callback that never stops the walk. -/
def always (V : Type) : List V → V → Bool := fun _ _ => true

/-- The test of the package documentation: the value is a multiple of the filter. -/
def divides : Nat → Nat → Bool := fun value filter => value % filter == 0

/-! ## The invariant of the reachable states -/

/-- The elements are in strictly ascending identifier order. -/
def SortedById {V : Type} (l : SkipList V) : Prop := l.Pairwise (fun a b => a.id < b.id)

instance entryIdAntisymm {V : Type} : IsAntisymm (entry V) (fun a b => a.id < b.id) :=
  ⟨fun _ _ h1 h2 => absurd h1 (Nat.lt_asymm h2)⟩

/-- A filter of key `k` agrees with the ordered index `l` and the allocator `i`: it has
scanned the ids below its high-water mark, which is at most `i`; its set is ascending,
lies below the mark, holds the id of every element of `l` below the mark that passes
the test, and the id of no element of `l` that fails it. -/
structure FilterOK (l : SkipList V) (test : V → F → Bool) (i : Nat) (k : F) (f : filter) :
    Prop where
  le : f.i ≤ i
  sorted : f.set.Pairwise (· < ·)
  lt : ∀ id ∈ f.set, id < f.i
  sound : ∀ e ∈ l, e.id ∈ f.set → test e.val k = true
  complete : ∀ e ∈ l, e.id < f.i → test e.val k = true → e.id ∈ f.set

/-- What holds in every reachable state: the allocator is below `idLimit` and above
every identifier in use, the ordered index is strictly ascending, a locator entry names
a live element with its value, and every cached filter agrees with the ordered index. -/
structure Inv (sf : SkipFilter V F) : Prop where
  bound : sf.i < idLimit
  sorted : SortedById sf.list
  ids_lt : ∀ e ∈ sf.list, e.id < sf.i
  idx_live : ∀ v id, mapGet sf.idx v = some id → ({ id := id, val := v } : entry V) ∈ sf.list
  cache_ok : ∀ k f, (k, f) ∈ sf.cache.entries → FilterOK sf.list sf.test sf.i k f

/-! ## The loops, as functions of the elements they run over -/

/-- What the loop of `Walk` returns when it runs over the elements `suf`, up to the last
element of the ordered index: it stops after the first element the callback refuses,
and after the last element otherwise. -/
def walkRef (callback : List V → V → Bool) :
    List (entry V) → Nat → List (entry V) → Nat × List (entry V)
  | [], prev, visited => ((prev + 1) % uint64Size, visited)
  | e :: rest, _, visited =>
    if callback (visited.map entry.val) e.val then walkRef callback rest e.id (visited ++ [e])
    else ((e.id + 1) % uint64Size, visited ++ [e])

/-- What the scan loop of `getFilter` leaves in the set when it runs over the elements
`suf`. -/
def scanRef (test : V → F → Bool) (k : F) (suf : List (entry V)) (set : Bitmap) : Bitmap :=
  suf.foldl (fun s e => if test e.val k then Bitmap.Add s e.id else s) set

/-- What `getFilter` returns, with the scan written as a function of the elements at
or above the high-water mark. -/
def getFilterRef (sf : SkipFilter V F) (k : F) : SkipFilter V F × filter :=
  let f : filter :=
    match sf.cache.GetIfPresent k with
    | some val => val
    | none => { i := 0, set := [] }
  let cache : Cache F :=
    match sf.cache.GetIfPresent k with
    | some _ => sf.cache
    | none => sf.cache.Set k f
  if f.i < sf.i then
    let set := scanRef sf.test k (sf.list.filter (fun e => decide (f.i ≤ e.id))) f.set
    ({ sf with cache := cache.Set k { i := sf.i, set := set } }, { i := sf.i, set := set })
  else ({ sf with cache := cache }, f)

/-! ## The states of the examples -/

/-- The state after `Add(2)`, `Add(3)`, `Add(4)` with the test `divides`. -/
def stateAdded : SkipFilter Nat Nat :=
  { i := 3, idx := [(2, 0), (3, 1), (4, 2)],
    list := [{ id := 0, val := 2 }, { id := 1, val := 3 }, { id := 2, val := 4 }],
    cache := { maximumSize := 10, entries := [] }, test := divides }

/-- The state after `Add(2)`, `Add(3)`, `Add(4)`, `MatchAny(2)`, `Remove(2)`: the filter
of key 2 still holds the id 0 of the removed element. -/
def stateRemoved : SkipFilter Nat Nat :=
  { i := 3, idx := [(3, 1), (4, 2)],
    list := [{ id := 1, val := 3 }, { id := 2, val := 4 }],
    cache := { maximumSize := 10, entries := [(2, { i := 3, set := [0, 2] })] },
    test := divides }

/-- The state after `Add(2)`, `Add(2)`: two elements with the value 2. -/
def stateTwice : SkipFilter Nat Nat :=
  { i := 2, idx := [(2, 1)],
    list := [{ id := 0, val := 2 }, { id := 1, val := 2 }],
    cache := { maximumSize := 10, entries := [] }, test := divides }

/-! ## Evictions and histories -/

/-- The state after the cache has dropped the entries of the keys `ks`. -/
def evictAll (sf : SkipFilter V F) (ks : List F) : SkipFilter V F :=
  ks.foldl (fun s k => { s with cache := s.cache.evict k }) sf

/-- The elements the `Add` calls of a sequence of steps insert, in call order: each
`Add` makes an element of the allocator of the state it is called in and its value. -/
def insertedElems : SkipFilter V F → List (Op V F) → List (entry V)
  | _, [] => []
  | sf, op :: ops =>
    match step sf op with
    | none => []
    | some sf1 =>
      match op with
      | .add value => { id := sf.i, val := value } :: insertedElems sf1 ops
      | _ => insertedElems sf1 ops

/-- The elements that `Add` calls for the values `vs`, one after the other, insert when
the allocator is `i` at the first of them. -/
def addedElems : Nat → List V → List (entry V)
  | _, [] => []
  | i, v :: vs => { id := i, val := v } :: addedElems (i + 1) vs

/-- Where the ids of a filter `f1` built for the key `k` in the state `sf` come from:
the set of the entry `k` had, or an element of the ordered index that passes the test. -/
def Origin (sf : SkipFilter V F) (k : F) (f1 : filter) : Prop :=
  ∀ id ∈ f1.set, (∃ f, sf.cache.GetIfPresent k = some f ∧ id ∈ f.set) ∨
    ∃ e ∈ sf.list, e.id = id ∧ sf.test e.val k = true

/-- The state with one element, after `Add(5)`. -/
def stateSingle : SkipFilter Nat Nat :=
  { i := 1, idx := [(5, 0)], list := [{ id := 0, val := 5 }],
    cache := { maximumSize := 10, entries := [] }, test := divides }

end Model

/-! # Verification -/

set_option linter.unusedSectionVars false

section Basics
/-! ## Keys -/

theorem toFloat64_of_lt {n : Nat} (h : n < idLimit) : toFloat64 n = n := by
  unfold toFloat64
  unfold idLimit at h
  rw [if_pos h]

theorem idLimit_le_toFloat64 {n : Nat} (h : idLimit ≤ n) : idLimit ≤ toFloat64 n := by
  unfold toFloat64
  have hn : ¬ n < 2 ^ 53 := by unfold idLimit at h; omega
  rw [if_neg hn]
  have hn0 : n ≠ 0 := by unfold idLimit at h; omega
  have hlog : 53 ≤ Nat.log2 n := (Nat.le_log2 hn0).2 h
  have hq : 2 ^ 52 ≤ n / 2 ^ (Nat.log2 n - 52) := by
    rw [Nat.le_div_iff_mul_le (by positivity)]
    calc 2 ^ 52 * 2 ^ (Nat.log2 n - 52) = 2 ^ (52 + (Nat.log2 n - 52)) := by rw [pow_add]
      _ = 2 ^ (Nat.log2 n) := by congr 1; omega
      _ ≤ n := Nat.log2_self_le hn0
  have base : idLimit ≤ (n / 2 ^ (Nat.log2 n - 52)) * 2 ^ (Nat.log2 n - 52) := by
    calc idLimit = 2 ^ 52 * 2 ^ 1 := by norm_num [idLimit]
      _ ≤ (n / 2 ^ (Nat.log2 n - 52)) * 2 ^ (Nat.log2 n - 52) :=
        Nat.mul_le_mul hq (Nat.pow_le_pow_right (by norm_num) (by omega))
  have base2 : (n / 2 ^ (Nat.log2 n - 52)) * 2 ^ (Nat.log2 n - 52)
      ≤ (n / 2 ^ (Nat.log2 n - 52) + 1) * 2 ^ (Nat.log2 n - 52) :=
    Nat.mul_le_mul_right _ (by omega)
  dsimp only
  split_ifs <;> omega

theorem key_le_iff {start id : Nat} (h : id < idLimit) :
    toFloat64 start ≤ toFloat64 id ↔ start ≤ id := by
  rw [toFloat64_of_lt h]
  by_cases hs : start < idLimit
  · rw [toFloat64_of_lt hs]
  · have := idLimit_le_toFloat64 (Nat.le_of_not_lt hs)
    constructor <;> intro h' <;> omega

theorem key_eq_iff {a b : Nat} (ha : a < idLimit) :
    toFloat64 a = toFloat64 b ↔ a = b := by
  rw [toFloat64_of_lt ha]
  by_cases hb : b < idLimit
  · rw [toFloat64_of_lt hb]
  · have := idLimit_le_toFloat64 (Nat.le_of_not_lt hb)
    constructor <;> intro h' <;> omega

/-! ## Bitmaps -/

theorem Bitmap.mem_Add (s : Bitmap) (x y : Nat) : y ∈ Bitmap.Add s x ↔ y = x ∨ y ∈ s := by
  induction s with
  | nil => simp [Bitmap.Add]
  | cons z s ih =>
    unfold Bitmap.Add
    split_ifs with h1 h2
    · simp
    · subst h2; simp
    · simp only [List.mem_cons, ih]; tauto

theorem Bitmap.sorted_Add (s : Bitmap) (x : Nat) (hs : s.Pairwise (· < ·)) :
    (Bitmap.Add s x).Pairwise (· < ·) := by
  induction s with
  | nil => simp [Bitmap.Add]
  | cons z s ih =>
    unfold Bitmap.Add
    rw [List.pairwise_cons] at hs
    split_ifs with h1 h2
    · refine List.Pairwise.cons ?_ (List.Pairwise.cons hs.1 hs.2)
      intro a ha
      rcases List.mem_cons.1 ha with rfl | ha
      · exact h1
      · exact lt_trans h1 (hs.1 a ha)
    · exact List.Pairwise.cons hs.1 hs.2
    · refine List.Pairwise.cons ?_ (ih hs.2)
      intro a ha
      rcases (Bitmap.mem_Add s x a).1 ha with rfl | ha
      · omega
      · exact hs.1 a ha

theorem Bitmap.mem_removeAll (nf : List Nat) (s : Bitmap) (y : Nat) :
    y ∈ nf.foldl Bitmap.Remove s ↔ y ∈ s ∧ y ∉ nf := by
  induction nf generalizing s with
  | nil => simp
  | cons x nf ih =>
    rw [List.foldl_cons, ih]
    simp only [Bitmap.Remove, List.mem_filter, decide_eq_true_eq, List.mem_cons, not_or]
    tauto

theorem Bitmap.sorted_removeAll (nf : List Nat) (s : Bitmap) (hs : s.Pairwise (· < ·)) :
    (nf.foldl Bitmap.Remove s).Pairwise (· < ·) := by
  induction nf generalizing s with
  | nil => simpa using hs
  | cons x nf ih =>
    rw [List.foldl_cons]
    exact ih _ (hs.sublist (List.filter_sublist _))

theorem Bitmap.mem_Or (a b : Bitmap) (y : Nat) : y ∈ Bitmap.Or a b ↔ y ∈ a ∨ y ∈ b := by
  unfold Bitmap.Or
  induction b generalizing a with
  | nil => simp
  | cons x b ih =>
    rw [List.foldl_cons, ih, Bitmap.mem_Add]
    simp only [List.mem_cons]; tauto

theorem Bitmap.sorted_Or (a b : Bitmap) (ha : a.Pairwise (· < ·)) :
    (Bitmap.Or a b).Pairwise (· < ·) := by
  unfold Bitmap.Or
  induction b generalizing a with
  | nil => simpa using ha
  | cons x b ih =>
    rw [List.foldl_cons]
    exact ih _ (Bitmap.sorted_Add a x ha)

theorem mem_foldl_Or (sets : List Bitmap) (a : Bitmap) (y : Nat) :
    y ∈ sets.foldl Bitmap.Or a ↔ y ∈ a ∨ ∃ s ∈ sets, y ∈ s := by
  induction sets generalizing a with
  | nil => simp
  | cons s sets ih =>
    rw [List.foldl_cons, ih, Bitmap.mem_Or]
    simp only [List.mem_cons, exists_eq_or_imp]; tauto

theorem mem_ParOr (sets : List Bitmap) (y : Nat) : y ∈ ParOr sets ↔ ∃ s ∈ sets, y ∈ s := by
  unfold ParOr
  rw [mem_foldl_Or]; simp

theorem sorted_foldl_Or (sets : List Bitmap) (a : Bitmap) (ha : a.Pairwise (· < ·)) :
    (sets.foldl Bitmap.Or a).Pairwise (· < ·) := by
  induction sets generalizing a with
  | nil => simpa using ha
  | cons s sets ih =>
    rw [List.foldl_cons]
    exact ih _ (Bitmap.sorted_Or a s ha)

theorem sorted_ParOr (sets : List Bitmap) : (ParOr sets).Pairwise (· < ·) :=
  sorted_foldl_Or sets [] List.Pairwise.nil

/-! ## Maps -/

section Maps
variable {K A : Type} [DecidableEq K]

theorem mapGet_mem (m : List (K × A)) (k : K) (a : A) (h : mapGet m k = some a) :
    (k, a) ∈ m := by
  induction m with
  | nil => simp [mapGet] at h
  | cons p m ih =>
    obtain ⟨k', a'⟩ := p
    unfold mapGet at h
    split_ifs at h with hk
    · subst hk; simp at h; subst h; simp
    · exact List.mem_cons_of_mem _ (ih h)

theorem mapGet_mapSet (m : List (K × A)) (k k' : K) (a : A) :
    mapGet (mapSet m k a) k' = if k' = k then some a else mapGet m k' := by
  induction m with
  | nil => simp [mapSet, mapGet]
  | cons p m ih =>
    obtain ⟨k1, a1⟩ := p
    unfold mapSet
    by_cases hk : k = k1
    · subst hk
      rw [if_pos rfl]
      simp only [mapGet]
      split_ifs <;> rfl
    · rw [if_neg hk]
      simp only [mapGet, ih]
      by_cases h1 : k' = k1
      · subst h1
        have : ¬ k' = k := fun h => hk h.symm
        simp [this]
      · simp [h1]

theorem mem_mapSet (m : List (K × A)) (k : K) (a : A) (p : K × A) (h : p ∈ mapSet m k a) :
    p = (k, a) ∨ p ∈ m := by
  induction m with
  | nil => simp [mapSet] at h; exact Or.inl h
  | cons q m ih =>
    obtain ⟨k1, a1⟩ := q
    unfold mapSet at h
    split_ifs at h with hk
    · rcases List.mem_cons.1 h with h | h
      · exact Or.inl h
      · exact Or.inr (List.mem_cons_of_mem _ h)
    · rcases List.mem_cons.1 h with h | h
      · exact Or.inr (h ▸ List.mem_cons_self _ _)
      · rcases ih h with h | h
        · exact Or.inl h
        · exact Or.inr (List.mem_cons_of_mem _ h)

theorem mapGet_mapSet_self (m : List (K × A)) (k : K) (a : A) : mapGet (mapSet m k a) k = some a := by
  rw [mapGet_mapSet, if_pos rfl]

theorem mapGet_mapDelete (m : List (K × A)) (k k' : K) :
    mapGet (mapDelete m k) k' = if k' = k then none else mapGet m k' := by
  unfold mapDelete
  induction m with
  | nil => simp [mapGet]
  | cons p m ih =>
    obtain ⟨k1, a1⟩ := p
    by_cases hk : k1 = k
    · subst hk
      rw [List.filter_cons_of_neg (by simp), ih]
      by_cases h1 : k' = k1
      · simp [h1]
      · simp [h1, mapGet]
    · rw [List.filter_cons_of_pos (by simpa using hk)]
      simp only [mapGet, ih]
      by_cases h1 : k' = k1
      · subst h1; simp [hk]
      · simp [h1]

theorem mem_mapDelete (m : List (K × A)) (k : K) (p : K × A) (h : p ∈ mapDelete m k) :
    p ∈ m := List.mem_of_mem_filter h

end Maps

end Basics

section Index
variable {V : Type}

/-! ## The ordered index -/

theorem SortedById.eq_of_id_eq {l : SkipList V} (hs : SortedById l) {a b : entry V}
    (ha : a ∈ l) (hb : b ∈ l) (h : a.id = b.id) : a = b := by
  by_contra hne
  have hp : l.Pairwise (fun x y : entry V => x.id ≠ y.id) :=
    List.Pairwise.imp (fun h => Nat.ne_of_lt h) hs
  exact List.Pairwise.forall (fun x y hxy => Ne.symm hxy) hp ha hb hne h

theorem SkipList.Insert_eq_append (l : SkipList V) (e : entry V)
    (h : ∀ x ∈ l, x.id < e.id) (he : e.id < idLimit) : SkipList.Insert l e = l ++ [e] := by
  induction l with
  | nil => rfl
  | cons x xs ih =>
    have hx : x.id < e.id := h x (List.mem_cons_self _ _)
    have hk : ¬ e.ExtractKey < x.ExtractKey := by
      unfold entry.ExtractKey
      rw [toFloat64_of_lt he, toFloat64_of_lt (lt_trans hx he)]
      omega
    unfold SkipList.Insert
    rw [if_neg hk, ih (fun y hy => h y (List.mem_cons_of_mem _ hy))]
    rfl

theorem SkipList.Delete_eq_filter (l : SkipList V) (hs : SortedById l)
    (hx : ∀ e ∈ l, e.id < idLimit) (id : Nat) :
    SkipList.Delete l (toFloat64 id) = l.filter (fun e => decide (e.id ≠ id)) := by
  induction l with
  | nil => rfl
  | cons x xs ih =>
    have hxl : x.id < idLimit := hx x (List.mem_cons_self _ _)
    have hs' := List.pairwise_cons.1 hs
    unfold SkipList.Delete
    by_cases hk : x.ExtractKey = toFloat64 id
    · rw [if_pos hk]
      have hxid : x.id = id := (key_eq_iff hxl).1 hk
      rw [List.filter_cons_of_neg (by simp [hxid])]
      symm
      apply List.filter_eq_self.2
      intro a ha
      have := hs'.1 a ha
      simp only [ne_eq, decide_not, Bool.not_eq_true', decide_eq_false_iff_not]
      omega
    · rw [if_neg hk]
      have hxid : ¬ x.id = id := fun h => hk ((key_eq_iff hxl).2 h)
      rw [List.filter_cons_of_pos (by simpa using hxid),
        ih hs'.2 (fun e he => hx e (List.mem_cons_of_mem _ he))]

theorem SkipList.Find_eq_find (l : SkipList V) (hx : ∀ e ∈ l, e.id < idLimit) (id : Nat) :
    SkipList.Find l (toFloat64 id) = l.find? (fun e => decide (e.id = id)) := by
  induction l with
  | nil => rfl
  | cons x xs ih =>
    have hxl : x.id < idLimit := hx x (List.mem_cons_self _ _)
    unfold SkipList.Find
    by_cases hk : x.ExtractKey = toFloat64 id
    · rw [if_pos hk]
      have hxid : x.id = id := (key_eq_iff hxl).1 hk
      simp [hxid]
    · rw [if_neg hk]
      have hxid : ¬ x.id = id := fun h => hk ((key_eq_iff hxl).2 h)
      rw [ih (fun e he => hx e (List.mem_cons_of_mem _ he))]
      simp [hxid]

theorem SkipList.Find_some (l : SkipList V) (hx : ∀ e ∈ l, e.id < idLimit) (id : Nat) (e : entry V) (h : SkipList.Find l (toFloat64 id) = some e) :
    e ∈ l ∧ e.id = id := by
  rw [SkipList.Find_eq_find l hx id] at h
  exact ⟨List.mem_of_find?_eq_some h, by simpa using List.find?_some h⟩

theorem SkipList.Find_none (l : SkipList V) (hx : ∀ e ∈ l, e.id < idLimit) (id : Nat) (h : SkipList.Find l (toFloat64 id) = none) :
    ∀ e ∈ l, e.id ≠ id := by
  rw [SkipList.Find_eq_find l hx id] at h
  intro e he
  simpa using List.find?_eq_none.1 h e he

theorem SkipList.Find_of_mem (l : SkipList V) (hs : SortedById l)
    (hx : ∀ e ∈ l, e.id < idLimit) (e : entry V) (he : e ∈ l) :
    SkipList.Find l (toFloat64 e.id) = some e := by
  cases hf : SkipList.Find l (toFloat64 e.id) with
  | none => exact absurd rfl (SkipList.Find_none l hx e.id hf e he)
  | some x =>
    obtain ⟨hxl, hxid⟩ := SkipList.Find_some l hx e.id x hf
    rw [hs.eq_of_id_eq hxl he hxid]

theorem SkipList.FindGreaterOrEqual_none (l : SkipList V) (hx : ∀ e ∈ l, e.id < idLimit)
    (start : Nat) (h : SkipList.FindGreaterOrEqual l (toFloat64 start) = none) :
    ∀ e ∈ l, e.id < start := by
  induction l with
  | nil => simp
  | cons x xs ih =>
    have hxl : x.id < idLimit := hx x (List.mem_cons_self _ _)
    unfold SkipList.FindGreaterOrEqual at h
    split_ifs at h with hk
    simp only [Option.map_eq_none'] at h
    intro e he
    rcases List.mem_cons.1 he with rfl | he
    · unfold entry.ExtractKey at hk
      rw [key_le_iff hxl] at hk
      omega
    · exact ih (fun e he => hx e (List.mem_cons_of_mem _ he)) h e he

theorem SkipList.FindGreaterOrEqual_some (l : SkipList V) (hs : SortedById l)
    (hx : ∀ e ∈ l, e.id < idLimit) (start p : Nat)
    (h : SkipList.FindGreaterOrEqual l (toFloat64 start) = some p) :
    ∃ pre suf, l = pre ++ suf ∧ pre.length = p ∧ suf ≠ [] ∧
      (∀ e ∈ pre, e.id < start) ∧ (∀ e ∈ suf, start ≤ e.id) := by
  induction l generalizing p with
  | nil => simp [SkipList.FindGreaterOrEqual] at h
  | cons x xs ih =>
    have hxl : x.id < idLimit := hx x (List.mem_cons_self _ _)
    have hs' := List.pairwise_cons.1 hs
    unfold SkipList.FindGreaterOrEqual at h
    split_ifs at h with hk
    · unfold entry.ExtractKey at hk
      rw [key_le_iff hxl] at hk
      simp only [Option.some.injEq] at h
      subst h
      refine ⟨[], x :: xs, rfl, rfl, by simp, by simp, ?_⟩
      intro e he
      rcases List.mem_cons.1 he with rfl | he
      · exact hk
      · have := hs'.1 e he
        omega
    · unfold entry.ExtractKey at hk
      rw [key_le_iff hxl] at hk
      simp only [Option.map_eq_some'] at h
      obtain ⟨q, hq, rfl⟩ := h
      obtain ⟨pre, suf, hl, hlen, hne, hpre, hsuf⟩ :=
        ih hs'.2 (fun e he => hx e (List.mem_cons_of_mem _ he)) q hq
      refine ⟨x :: pre, suf, by rw [hl]; rfl, by simp [hlen], hne, ?_, hsuf⟩
      intro e he
      rcases List.mem_cons.1 he with rfl | he
      · omega
      · exact hpre e he

/-- The elements from the node `FindGreaterOrEqual` returns on are those with an id of
at least `start`. -/
theorem filter_ge_of_split (pre suf : List (entry V)) (start : Nat)
    (hpre : ∀ e ∈ pre, e.id < start) (hsuf : ∀ e ∈ suf, start ≤ e.id) :
    (pre ++ suf).filter (fun e => decide (start ≤ e.id)) = suf := by
  rw [List.filter_append]
  have h1 : pre.filter (fun e => decide (start ≤ e.id)) = [] := by
    apply List.filter_eq_nil_iff.2
    intro a ha
    have := hpre a ha
    simp only [decide_eq_true_eq]; omega
  have h2 : suf.filter (fun e => decide (start ≤ e.id)) = suf := by
    apply List.filter_eq_self.2
    intro a ha
    simpa using hsuf a ha
  rw [h1, h2]; rfl

end Index

section Loops
variable {V F : Type}

/-! ## The loops -/

theorem SortedById.le_last {pre : List (entry V)} {e : entry V}
    (hs : SortedById (pre ++ [e])) : ∀ x ∈ pre ++ [e], x.id ≤ e.id := by
  intro x hx
  rcases List.mem_append.1 hx with hx | hx
  · exact Nat.le_of_lt ((List.pairwise_append.1 hs).2.2 x hx e (List.mem_singleton_self e))
  · rw [List.mem_singleton.1 hx]

theorem SkipList.head_exists (l : SkipList V) (h : l ≠ []) : ∃ x, l[0]? = some x ∧ x ∈ l := by
  cases l with
  | nil => exact absurd rfl h
  | cons x xs => exact ⟨x, by simp, List.mem_cons_self _ _⟩

theorem SkipList.Next_last (pre : List (entry V)) (e : entry V) :
    SkipList.Next (pre ++ [e]) pre.length = some 0 := by
  unfold SkipList.Next
  simp

theorem SkipList.Next_inner (pre : List (entry V)) (e r : entry V) (rs : List (entry V)) :
    SkipList.Next (pre ++ e :: r :: rs) pre.length = some (pre ++ [e]).length := by
  unfold SkipList.Next
  simp

theorem scanLoop_spec (test : V → F → Bool) (k : F) (l : SkipList V) (hs : SortedById l) :
    ∀ (suf pre : List (entry V)), l = pre ++ suf → suf ≠ [] →
    ∀ (fuel : Nat), suf.length < fuel → ∀ (first : Bool) (prev : Nat) (set : Bitmap),
    (first = false → ∀ e ∈ suf, prev < e.id) →
    scanLoop test k l fuel (some pre.length) first prev set = some (scanRef test k suf set) := by
  intro suf
  induction suf with
  | nil => intro pre _ h; exact absurd rfl h
  | cons e rest ih =>
    intro pre hl _ fuel hfuel first prev set hprev
    obtain ⟨fuel1, rfl⟩ : ∃ n, fuel = n + 1 := ⟨fuel - 1, by omega⟩
    have hget : SkipList.GetValue l (some pre.length) = some e := by
      rw [hl]
      show (pre ++ e :: rest)[pre.length]? = some e
      rw [List.getElem?_append_right (le_refl _)]
      simp
    have hcond : (!first && decide (e.id ≤ prev)) = false := by
      cases first with
      | true => rfl
      | false =>
        have := hprev rfl e (List.mem_cons_self _ _)
        simp; omega
    unfold scanLoop
    simp only [hget, hcond, Bool.false_eq_true, if_false, Option.some_bind]
    cases rest with
    | nil =>
      subst hl
      rw [SkipList.Next_last]
      obtain ⟨fuel2, rfl⟩ : ∃ n, fuel1 = n + 1 := ⟨fuel1 - 1, by simp at hfuel; omega⟩
      obtain ⟨x, hx0, hxl⟩ := SkipList.head_exists (pre ++ [e]) (by simp)
      have hle : x.id ≤ e.id := SortedById.le_last hs x hxl
      unfold scanLoop
      simp [SkipList.GetValue, hx0, hle, scanRef]
    | cons r rs =>
      subst hl
      rw [SkipList.Next_inner]
      have hlt : ∀ y ∈ r :: rs, e.id < y.id :=
        (List.pairwise_cons.1 (List.pairwise_append.1 hs).2.1).1
      rw [ih (pre ++ [e]) (by simp) (by simp) fuel1 (by simp at hfuel ⊢; omega)
        false e.id _ (fun _ => hlt)]
      rfl

theorem walkLoop_spec (callback : List V → V → Bool) (l : SkipList V) (hs : SortedById l) :
    ∀ (suf pre : List (entry V)), l = pre ++ suf → suf ≠ [] →
    ∀ (fuel : Nat), suf.length < fuel →
    ∀ (first : Bool) (prev id : Nat) (visited : List (entry V)),
    (first = false → ∀ e ∈ suf, prev < e.id) →
    walkLoop callback l fuel (some pre.length) first prev id visited
      = some (walkRef callback suf prev visited) := by
  intro suf
  induction suf with
  | nil => intro pre _ h; exact absurd rfl h
  | cons e rest ih =>
    intro pre hl _ fuel hfuel first prev id visited hprev
    obtain ⟨fuel1, rfl⟩ : ∃ n, fuel = n + 1 := ⟨fuel - 1, by omega⟩
    have hget : SkipList.GetValue l (some pre.length) = some e := by
      rw [hl]
      show (pre ++ e :: rest)[pre.length]? = some e
      rw [List.getElem?_append_right (le_refl _)]
      simp
    have hcond : (!first && decide (e.id ≤ prev)) = false := by
      cases first with
      | true => rfl
      | false =>
        have := hprev rfl e (List.mem_cons_self _ _)
        simp; omega
    unfold walkLoop
    simp only [hget, hcond, Bool.false_eq_true, if_false, Option.some_bind]
    unfold walkRef
    cases hcb : callback (visited.map entry.val) e.val with
    | false => simp
    | true =>
      simp only [Bool.not_true, Bool.false_eq_true, if_false, if_true]
      cases rest with
      | nil =>
        subst hl
        rw [SkipList.Next_last]
        obtain ⟨fuel2, rfl⟩ : ∃ n, fuel1 = n + 1 := ⟨fuel1 - 1, by simp at hfuel; omega⟩
        obtain ⟨x, hx0, hxl⟩ := SkipList.head_exists (pre ++ [e]) (by simp)
        have hle : x.id ≤ e.id := SortedById.le_last hs x hxl
        unfold walkLoop
        simp [SkipList.GetValue, hx0, hle, walkRef]
      | cons r rs =>
        subst hl
        rw [SkipList.Next_inner]
        have hlt : ∀ y ∈ r :: rs, e.id < y.id :=
          (List.pairwise_cons.1 (List.pairwise_append.1 hs).2.1).1
        rw [ih (pre ++ [e]) (by simp) (by simp) fuel1 (by simp at hfuel ⊢; omega)
          false e.id e.id _ (fun _ => hlt)]

/-- The elements `Walk` and the scan of `getFilter` start from. -/
theorem traversal_start (l : SkipList V) (hs : SortedById l) (hx : ∀ e ∈ l, e.id < idLimit)
    (start : Nat) :
    (SkipList.FindGreaterOrEqual l (toFloat64 start) = none ∧
      l.filter (fun e => decide (start ≤ e.id)) = []) ∨
    (∃ pre suf, SkipList.FindGreaterOrEqual l (toFloat64 start) = some pre.length ∧
      l = pre ++ suf ∧ suf ≠ [] ∧ l.filter (fun e => decide (start ≤ e.id)) = suf) := by
  cases h : SkipList.FindGreaterOrEqual l (toFloat64 start) with
  | none =>
    left
    refine ⟨rfl, List.filter_eq_nil_iff.2 ?_⟩
    intro a ha
    have := SkipList.FindGreaterOrEqual_none l hx start h a ha
    simp only [decide_eq_true_eq]; omega
  | some p =>
    right
    obtain ⟨pre, suf, hl, hlen, hne, hpre, hsuf⟩ :=
      SkipList.FindGreaterOrEqual_some l hs hx start p h
    exact ⟨pre, suf, by rw [hlen], hl, hne, by rw [hl]; exact filter_ge_of_split pre suf start hpre hsuf⟩

theorem walkLoop_nil (callback : List V → V → Bool) (l : SkipList V) (fuel : Nat)
    (first : Bool) (prev id : Nat) (visited : List (entry V)) :
    walkLoop callback l (fuel + 1) none first prev id visited = some (id, visited) := by
  unfold walkLoop; rfl

theorem scanLoop_nil (test : V → F → Bool) (k : F) (l : SkipList V) (fuel : Nat)
    (first : Bool) (prev : Nat) (set : Bitmap) :
    scanLoop test k l (fuel + 1) none first prev set = some set := by
  unfold scanLoop; rfl

end Loops

section Scan
variable {V F : Type}

theorem scanRef_nil (test : V → F → Bool) (k : F) (set : Bitmap) :
    scanRef test k [] set = set := rfl

theorem scan_eq (test : V → F → Bool) (k : F) (l : SkipList V) (hs : SortedById l)
    (hx : ∀ e ∈ l, e.id < idLimit) (start : Nat) (set : Bitmap) :
    scanLoop test k l (l.length + 1) (SkipList.FindGreaterOrEqual l (toFloat64 start))
      true 0 set
      = some (scanRef test k (l.filter (fun e => decide (start ≤ e.id))) set) := by
  rcases traversal_start l hs hx start with ⟨h1, h2⟩ | ⟨pre, suf, h1, h2, h3, h4⟩
  · rw [h1, h2, scanLoop_nil, scanRef_nil]
  · rw [h1, h4]
    refine scanLoop_spec test k l hs suf pre h2 h3 _ ?_ true 0 set (fun h => by cases h)
    rw [h2]; simp; omega

theorem walk_eq (callback : List V → V → Bool) (l : SkipList V) (hs : SortedById l)
    (hx : ∀ e ∈ l, e.id < idLimit) (start : Nat) :
    walkLoop callback l (l.length + 1) (SkipList.FindGreaterOrEqual l (toFloat64 start))
      true 0 start []
      = some (match l.filter (fun e => decide (start ≤ e.id)) with
          | [] => (start, [])
          | e :: rest => walkRef callback (e :: rest) 0 []) := by
  rcases traversal_start l hs hx start with ⟨h1, h2⟩ | ⟨pre, suf, h1, h2, h3, h4⟩
  · rw [h1, h2, walkLoop_nil]
  · rw [h1, h4]
    have := walkLoop_spec callback l hs suf pre h2 h3 (l.length + 1) (by rw [h2]; simp; omega)
      true 0 start [] (fun h => by cases h)
    rw [this]
    cases suf with
    | nil => exact absurd rfl h3
    | cons e rest => rfl

theorem mem_scanRef (test : V → F → Bool) (k : F) (suf : List (entry V)) (set : Bitmap)
    (id : Nat) :
    id ∈ scanRef test k suf set ↔ id ∈ set ∨ ∃ e ∈ suf, e.id = id ∧ test e.val k = true := by
  unfold scanRef
  induction suf generalizing set with
  | nil => simp
  | cons x xs ih =>
    rw [List.foldl_cons, ih]
    by_cases ht : test x.val k = true
    · simp only [ht, if_true, Bitmap.mem_Add, List.mem_cons, exists_eq_or_imp]
      constructor
      · rintro ((h | h) | h)
        · exact Or.inr (Or.inl ⟨h.symm, trivial⟩)
        · exact Or.inl h
        · exact Or.inr (Or.inr h)
      · rintro (h | ⟨h, _⟩ | h)
        · exact Or.inl (Or.inr h)
        · exact Or.inl (Or.inl h.symm)
        · exact Or.inr h
    · simp only [ht, if_false, List.mem_cons, exists_eq_or_imp, and_false, false_or,
        Bool.false_eq_true]

theorem sorted_scanRef (test : V → F → Bool) (k : F) (suf : List (entry V)) (set : Bitmap)
    (h : set.Pairwise (· < ·)) : (scanRef test k suf set).Pairwise (· < ·) := by
  unfold scanRef
  induction suf generalizing set with
  | nil => simpa using h
  | cons x xs ih =>
    rw [List.foldl_cons]
    apply ih
    split_ifs
    · exact Bitmap.sorted_Add set x.id h
    · exact h

/-! ## getValues -/

theorem getValuesBatch_eq (l : SkipList V) (ids : List Nat) (values : List V)
    (notfound : List Nat) :
    getValuesBatch l ids (values, notfound) =
      (values ++ ids.filterMap (fun id => (SkipList.Find l (toFloat64 id)).map entry.val),
       notfound ++ ids.filter (fun id => (SkipList.Find l (toFloat64 id)).isNone)) := by
  induction ids generalizing values notfound with
  | nil => simp [getValuesBatch]
  | cons id ids ih =>
    unfold getValuesBatch
    cases hf : SkipList.Find l (toFloat64 id) with
    | none => simp [ih, hf]
    | some e => simp [ih, hf]

theorem getValuesBatch_append (l : SkipList V) (a b : List Nat) (acc : List V × List Nat) :
    getValuesBatch l (a ++ b) acc = getValuesBatch l b (getValuesBatch l a acc) := by
  obtain ⟨values, notfound⟩ := acc
  simp only [getValuesBatch_eq, List.filterMap_append, List.filter_append, List.append_assoc]

theorem getValuesLoop_eq (l : SkipList V) :
    ∀ (fuel : Nat) (iter : List Nat) (acc : List V × List Nat), iter.length < fuel →
    getValuesLoop l fuel iter acc = some (getValuesBatch l iter acc) := by
  intro fuel
  induction fuel with
  | zero => intro iter acc h; omega
  | succ fuel ih =>
    intro iter acc h
    unfold getValuesLoop
    by_cases hpos : 0 < (iter.take 512).length
    · simp only [hpos, if_true]
      have hlen : 0 < iter.length := by
        rw [List.length_take] at hpos; omega
      rw [ih (iter.drop 512) _ (by rw [List.length_drop]; omega), ← getValuesBatch_append,
        List.take_append_drop]
    · simp only [hpos, if_false]
      have : iter = [] := by
        rw [List.length_take] at hpos
        apply List.eq_nil_of_length_eq_zero
        omega
      rw [this]
      obtain ⟨values, notfound⟩ := acc
      rfl

theorem getValues_eq [DecidableEq V] [DecidableEq F] (sf : SkipFilter V F) (set : Bitmap) :
    getValues sf set = some
      (set.filterMap (fun id => (SkipList.Find sf.list (toFloat64 id)).map entry.val),
       set.filter (fun id => (SkipList.Find sf.list (toFloat64 id)).isNone)) := by
  unfold getValues
  rw [getValuesLoop_eq sf.list _ set ([], []) (by omega), getValuesBatch_eq]
  simp

end Scan

section Invariant
variable {V F : Type}

theorem SortedById.nodup {l : SkipList V} (hs : SortedById l) : l.Nodup := by
  unfold SortedById at hs
  refine List.Pairwise.imp ?_ hs
  intro a b h hab
  rw [hab] at h
  exact Nat.lt_irrefl _ h

/-- Looking up the ids of an ascending set in the ordered index gives the live elements
whose id is in the set, in the order of the index. -/
theorem found_eq_filter (l : SkipList V) (hs : SortedById l) (hx : ∀ e ∈ l, e.id < idLimit)
    (U : Bitmap) (hU : U.Pairwise (· < ·)) :
    U.filterMap (fun id => SkipList.Find l (toFloat64 id))
      = l.filter (fun e => decide (e.id ∈ U)) := by
  have h1 : SortedById (U.filterMap (fun id => SkipList.Find l (toFloat64 id))) := by
    refine List.Pairwise.filterMap _ ?_ hU
    intro a a' haa b hb b' hb'
    rw [(SkipList.Find_some l hx a b (Option.mem_def.1 hb)).2,
      (SkipList.Find_some l hx a' b' (Option.mem_def.1 hb')).2]
    exact haa
  have h2 : SortedById (l.filter (fun e => decide (e.id ∈ U))) :=
    List.Pairwise.sublist (List.filter_sublist _) hs
  refine List.eq_of_perm_of_sorted ?_ h1 h2
  refine (List.perm_ext_iff_of_nodup h1.nodup h2.nodup).2 ?_
  intro e
  simp only [List.mem_filterMap, List.mem_filter, decide_eq_true_eq]
  constructor
  · rintro ⟨id, hid, hf⟩
    obtain ⟨hel, heid⟩ := SkipList.Find_some l hx id e hf
    exact ⟨hel, heid ▸ hid⟩
  · rintro ⟨hel, hid⟩
    exact ⟨e.id, hid, SkipList.Find_of_mem l hs hx e hel⟩

theorem notfound_eq_filter (l : SkipList V) (hx : ∀ e ∈ l, e.id < idLimit) (U : Bitmap)
    (id : Nat) :
    id ∈ U.filter (fun id => (SkipList.Find l (toFloat64 id)).isNone)
      ↔ id ∈ U ∧ ∀ e ∈ l, e.id ≠ id := by
  simp only [List.mem_filter, Option.isNone_iff_eq_none]
  constructor
  · rintro ⟨h1, h2⟩
    exact ⟨h1, SkipList.Find_none l hx id h2⟩
  · rintro ⟨h1, h2⟩
    refine ⟨h1, ?_⟩
    cases hf : SkipList.Find l (toFloat64 id) with
    | none => rfl
    | some e =>
      obtain ⟨hel, heid⟩ := SkipList.Find_some l hx id e hf
      exact absurd heid (h2 e hel)

section Invariant
variable [DecidableEq V] [DecidableEq F]

theorem Inv.exact {sf : SkipFilter V F} (h : Inv sf) : ∀ e ∈ sf.list, e.id < idLimit :=
  fun e he => lt_trans (h.ids_lt e he) h.bound

theorem Inv_New (test : V → F → Bool) (maximumSize : Int) : Inv (New test maximumSize) where
  bound := by norm_num [New, idLimit]
  sorted := List.Pairwise.nil
  ids_lt := by intro e he; simp [New, SkipList.New] at he
  idx_live := by intro v id h; simp [New, mapGet] at h
  cache_ok := by intro k f h; simp [New] at h

theorem Add_i {sf : SkipFilter V F} (hb : sf.i + 1 < idLimit) (v : V) :
    (Add sf v).i = sf.i + 1 := by
  show (sf.i + 1) % uint64Size = sf.i + 1
  apply Nat.mod_eq_of_lt
  unfold idLimit at hb
  unfold uint64Size
  omega

theorem Add_list {sf : SkipFilter V F} (h : Inv sf) (v : V) :
    (Add sf v).list = sf.list ++ [{ id := sf.i, val := v }] :=
  SkipList.Insert_eq_append sf.list _ h.ids_lt h.bound

theorem FilterOK.mono_delete {l l' : SkipList V} {test : V → F → Bool} {i : Nat} {k : F}
    {f : filter} (h : FilterOK l test i k f) (hsub : ∀ e ∈ l', e ∈ l) :
    FilterOK l' test i k f where
  le := h.le
  sorted := h.sorted
  lt := h.lt
  sound := fun e he => h.sound e (hsub e he)
  complete := fun e he => h.complete e (hsub e he)

theorem Inv_Add {sf : SkipFilter V F} (h : Inv sf) (hb : sf.i + 1 < idLimit) (v : V) :
    Inv (Add sf v) where
  bound := by rw [Add_i hb]; exact hb
  sorted := by
    rw [Add_list h]
    refine List.pairwise_append.2 ⟨h.sorted, List.pairwise_singleton _ _, ?_⟩
    intro a ha b hb'
    rw [List.mem_singleton.1 hb']
    exact h.ids_lt a ha
  ids_lt := by
    rw [Add_list h, Add_i hb]
    intro e he
    rcases List.mem_append.1 he with he | he
    · exact Nat.lt_succ_of_lt (h.ids_lt e he)
    · rw [List.mem_singleton.1 he]; exact Nat.lt_succ_self _
  idx_live := by
    intro w id hw
    rw [Add_list h]
    have hw' : mapGet (mapSet sf.idx v sf.i) w = some id := hw
    rw [mapGet_mapSet] at hw'
    split_ifs at hw' with hwv
    · simp only [Option.some.injEq] at hw'
      subst hwv; subst hw'
      exact List.mem_append_right _ (List.mem_singleton_self _)
    · exact List.mem_append_left _ (h.idx_live w id hw')
  cache_ok := by
    intro k f hkf
    have hok := h.cache_ok k f hkf
    rw [Add_list h, Add_i hb]
    refine ⟨Nat.le_succ_of_le hok.le, hok.sorted, hok.lt, ?_, ?_⟩
    · intro e he hes
      rcases List.mem_append.1 he with he | he
      · exact hok.sound e he hes
      · rw [List.mem_singleton.1 he] at hes
        have := hok.lt _ hes
        have := hok.le
        simp only at *
        omega
    · intro e he hlt
      rcases List.mem_append.1 he with he | he
      · exact hok.complete e he hlt
      · rw [List.mem_singleton.1 he] at hlt
        have := hok.le
        simp only at *
        omega

theorem Remove_of_none {sf : SkipFilter V F} {v : V} (h : mapGet sf.idx v = none) :
    Remove sf v = sf := by
  unfold Remove; rw [h]

theorem Remove_of_some {sf : SkipFilter V F} {v : V} {id : Nat}
    (h : mapGet sf.idx v = some id) :
    Remove sf v = { sf with
      list := SkipList.Delete sf.list (toFloat64 id)
      idx := mapDelete sf.idx v } := by
  unfold Remove; rw [h]

theorem Remove_list {sf : SkipFilter V F} (hinv : Inv sf) {v : V} {id : Nat}
    (h : mapGet sf.idx v = some id) :
    (Remove sf v).list = sf.list.filter (fun e => decide (e.id ≠ id)) := by
  rw [Remove_of_some h]
  exact SkipList.Delete_eq_filter sf.list hinv.sorted hinv.exact id

theorem Inv_Remove {sf : SkipFilter V F} (h : Inv sf) (v : V) : Inv (Remove sf v) := by
  cases hv : mapGet sf.idx v with
  | none => rw [Remove_of_none hv]; exact h
  | some id =>
    have hl := Remove_list h hv
    have hrest : (Remove sf v).i = sf.i ∧ (Remove sf v).idx = mapDelete sf.idx v ∧
        (Remove sf v).cache = sf.cache ∧ (Remove sf v).test = sf.test := by
      rw [Remove_of_some hv]; exact ⟨rfl, rfl, rfl, rfl⟩
    obtain ⟨hi, hidx, hc, ht⟩ := hrest
    have hsub : ∀ e ∈ (Remove sf v).list, e ∈ sf.list := by
      rw [hl]; intro e he; exact List.mem_of_mem_filter he
    refine ⟨by rw [hi]; exact h.bound, ?_, ?_, ?_, ?_⟩
    · rw [hl]; exact List.Pairwise.sublist (List.filter_sublist _) h.sorted
    · rw [hi]; intro e he; exact h.ids_lt e (hsub e he)
    · intro w idw hw
      rw [hidx, mapGet_mapDelete] at hw
      split_ifs at hw with hwv
      have hmem := h.idx_live w idw hw
      rw [hl]
      refine List.mem_filter.2 ⟨hmem, ?_⟩
      simp only [ne_eq, decide_not, Bool.not_eq_true', decide_eq_false_iff_not]
      intro hid
      have heq := h.sorted.eq_of_id_eq hmem (h.idx_live v id hv) hid
      exact hwv (congrArg entry.val heq)
    · intro k f hkf
      rw [hc] at hkf
      rw [hi, ht]
      exact (h.cache_ok k f hkf).mono_delete hsub

theorem Inv_evict {sf : SkipFilter V F} (h : Inv sf) (k : F) :
    Inv { sf with cache := sf.cache.evict k } where
  bound := h.bound
  sorted := h.sorted
  ids_lt := h.ids_lt
  idx_live := h.idx_live
  cache_ok := fun k' f hkf => h.cache_ok k' f (mem_mapDelete _ _ _ hkf)

end Invariant

end Invariant

section Builder
variable {V F : Type} [DecidableEq V] [DecidableEq F]

/-! ## getFilter -/

theorem getFilter_eq {sf : SkipFilter V F} (h : Inv sf) (k : F) :
    getFilter sf k = some (getFilterRef sf k) := by
  unfold getFilter getFilterRef
  simp only [scan_eq sf.test k sf.list h.sorted h.exact]
  split_ifs <;> rfl

theorem FilterOK_fresh (l : SkipList V) (test : V → F → Bool) (i : Nat) (k : F) :
    FilterOK l test i k { i := 0, set := [] } where
  le := Nat.zero_le _
  sorted := List.Pairwise.nil
  lt := by intro id h; simp at h
  sound := by intro e _ h; simp at h
  complete := by intro e _ h; simp at h

theorem FilterOK_rebuilt {sf : SkipFilter V F} (h : Inv sf) (k : F) (f0 : filter)
    (h0 : FilterOK sf.list sf.test sf.i k f0) :
    FilterOK sf.list sf.test sf.i k
      { i := sf.i,
        set := scanRef sf.test k (sf.list.filter (fun e => decide (f0.i ≤ e.id))) f0.set } where
  le := le_refl _
  sorted := sorted_scanRef _ _ _ _ h0.sorted
  lt := by
    intro id hid
    rcases (mem_scanRef _ _ _ _ _).1 hid with hid | ⟨e, he, heid, _⟩
    · exact lt_of_lt_of_le (h0.lt id hid) h0.le
    · rw [← heid]; exact h.ids_lt e (List.mem_of_mem_filter he)
  sound := by
    intro e he hid
    rcases (mem_scanRef _ _ _ _ _).1 hid with hid | ⟨e', he', heid, ht⟩
    · exact h0.sound e he hid
    · rw [← h.sorted.eq_of_id_eq (List.mem_of_mem_filter he') he heid]; exact ht
  complete := by
    intro e he _ ht
    refine (mem_scanRef _ _ _ _ _).2 ?_
    by_cases hlt : e.id < f0.i
    · exact Or.inl (h0.complete e he hlt ht)
    · exact Or.inr ⟨e, List.mem_filter.2 ⟨he, by simpa using hlt⟩, rfl, ht⟩

theorem Inv_setCache {sf : SkipFilter V F} (h : Inv sf) (k : F) (f : filter)
    (hf : FilterOK sf.list sf.test sf.i k f) : Inv { sf with cache := sf.cache.Set k f } where
  bound := h.bound
  sorted := h.sorted
  ids_lt := h.ids_lt
  idx_live := h.idx_live
  cache_ok := by
    intro k' f' hkf
    rcases mem_mapSet _ _ _ _ hkf with heq | hmem
    · simp only [Prod.mk.injEq] at heq
      rw [heq.1, heq.2]; exact hf
    · exact h.cache_ok k' f' hmem

/-- What a call of `getFilter` leaves unchanged, and what it returns: the state keeps
its invariant, the returned filter is the cache entry of the key, it agrees with the
ordered index, and its high-water mark is the allocator. -/
theorem getFilterRef_spec {sf : SkipFilter V F} (h : Inv sf) (k : F) :
    Inv (getFilterRef sf k).1 ∧
    (getFilterRef sf k).1.list = sf.list ∧ (getFilterRef sf k).1.i = sf.i ∧
    (getFilterRef sf k).1.idx = sf.idx ∧ (getFilterRef sf k).1.test = sf.test ∧
    (getFilterRef sf k).1.cache.GetIfPresent k = some (getFilterRef sf k).2 ∧
    FilterOK sf.list sf.test sf.i k (getFilterRef sf k).2 ∧
    (getFilterRef sf k).2.i = sf.i ∧
    (∀ k', k' ≠ k → (getFilterRef sf k).1.cache.GetIfPresent k' = sf.cache.GetIfPresent k') := by
  unfold getFilterRef
  cases hget : sf.cache.GetIfPresent k with
  | some f0 =>
    have h0 : FilterOK sf.list sf.test sf.i k f0 := h.cache_ok k f0 (mapGet_mem _ _ _ hget)
    simp only
    split_ifs with hlt
    · refine ⟨Inv_setCache h k _ (FilterOK_rebuilt h k f0 h0), rfl, rfl, rfl, rfl, ?_,
        FilterOK_rebuilt h k f0 h0, rfl, ?_⟩
      · exact mapGet_mapSet_self _ _ _
      · intro k' hk'
        show mapGet (mapSet _ _ _) k' = _
        rw [mapGet_mapSet, if_neg hk']; rfl
    · refine ⟨h, rfl, rfl, rfl, rfl, hget, h0, ?_, fun _ _ => rfl⟩
      have := h0.le
      show f0.i = sf.i
      omega
  | none =>
    have hfresh := FilterOK_fresh sf.list sf.test sf.i k
    have h1 : Inv { sf with cache := sf.cache.Set k { i := 0, set := [] } } :=
      Inv_setCache h k _ hfresh
    simp only
    split_ifs with hlt
    · refine ⟨Inv_setCache h1 k _ (FilterOK_rebuilt h k _ hfresh), rfl, rfl, rfl, rfl, ?_,
        FilterOK_rebuilt h k _ hfresh, rfl, ?_⟩
      · exact mapGet_mapSet_self _ _ _
      · intro k' hk'
        show mapGet (mapSet (mapSet _ _ _) _ _) k' = _
        rw [mapGet_mapSet, if_neg hk', mapGet_mapSet, if_neg hk']; rfl
    · refine ⟨h1, rfl, rfl, rfl, rfl, mapGet_mapSet_self _ _ _, hfresh, ?_, ?_⟩
      · show 0 = sf.i
        simp only at hlt; omega
      · intro k' hk'
        show mapGet (mapSet _ _ _) k' = _
        rw [mapGet_mapSet, if_neg hk']; rfl

/-- The fast path: a filter whose high-water mark is the allocator is returned as it is
and the state does not change. -/
theorem getFilterRef_current {sf : SkipFilter V F} (k : F) (f : filter)
    (hget : sf.cache.GetIfPresent k = some f) (hi : ¬ f.i < sf.i) :
    getFilterRef sf k = (sf, f) := by
  unfold getFilterRef
  simp only [hget, hi, if_false]

end Builder

section Filters
variable {V F : Type} [DecidableEq V] [DecidableEq F]

/-! ## MatchAny -/

/-- The first loop of `MatchAny` returns; it changes the cache only; the filters it
collects are the cache entries of the keys when it ends; each has the allocator as its
high-water mark; and an entry that was current before is left as it was. -/
theorem getFilters_spec {sf : SkipFilter V F} (h : Inv sf) (ks : List F) :
    ∃ sf1 fs, getFilters sf ks = some (sf1, fs) ∧ Inv sf1 ∧
      sf1.list = sf.list ∧ sf1.i = sf.i ∧ sf1.idx = sf.idx ∧ sf1.test = sf.test ∧
      fs.map some = ks.map sf1.cache.GetIfPresent ∧
      (∀ k ∈ ks, ∃ f, sf1.cache.GetIfPresent k = some f ∧ f.i = sf.i) ∧
      (∀ k0 f0, sf.cache.GetIfPresent k0 = some f0 → ¬ f0.i < sf.i →
        sf1.cache.GetIfPresent k0 = some f0) ∧
      ((∀ k ∈ ks, ∃ f, sf.cache.GetIfPresent k = some f ∧ ¬ f.i < sf.i) → sf1 = sf) := by
  induction ks generalizing sf with
  | nil =>
    exact ⟨sf, [], rfl, h, rfl, rfl, rfl, rfl, rfl, by simp, fun _ _ h _ => h, fun _ => rfl⟩
  | cons k ks ih =>
    have hspec := getFilterRef_spec h k
    have hcur := @getFilterRef_current V F _ _ sf k
    have heq := getFilter_eq h k
    rcases hr : getFilterRef sf k with ⟨sfa, f⟩
    rw [hr] at hspec heq hcur
    obtain ⟨hinv, hl, hi, hidx, ht, hget, -, hfi, hother⟩ := hspec
    simp only at hinv hl hi hidx ht hget hfi hother
    obtain ⟨sf1, fs, hfs, hinv1, hl1, hi1, hidx1, ht1, hmap, hall, hpres, hsame⟩ := ih hinv
    have hk1 : sf1.cache.GetIfPresent k = some f :=
      hpres k f hget (by rw [hi, hfi]; exact Nat.lt_irrefl _)
    refine ⟨sf1, f :: fs, ?_, hinv1, hl1.trans hl, hi1.trans hi, hidx1.trans hidx,
      ht1.trans ht, ?_, ?_, ?_, ?_⟩
    · unfold getFilters
      rw [heq]
      simp only [hfs]
    · simp only [List.map_cons, hk1, hmap]
    · intro k' hk'
      rcases List.mem_cons.1 hk' with rfl | hk'
      · exact ⟨f, hk1, hfi⟩
      · obtain ⟨f', hf', hfi'⟩ := hall k' hk'
        exact ⟨f', hf', hfi'.trans hi⟩
    · intro k0 f0 h0 hn0
      apply hpres k0 f0 ?_ (by rw [hi]; exact hn0)
      by_cases hk0 : k0 = k
      · subst hk0
        have := hcur f0 h0 hn0
        simp only [Prod.mk.injEq] at this
        rw [this.1, h0]
      · rw [hother k0 hk0]; exact h0
    · intro hcurrent
      obtain ⟨f0, h0, hn0⟩ := hcurrent k (List.mem_cons_self _ _)
      have := hcur f0 h0 hn0
      simp only [Prod.mk.injEq] at this
      have hsfa : sfa = sf := this.1
      subst hsfa
      exact hsame (fun k' hk' => hcurrent k' (List.mem_cons_of_mem _ hk'))

theorem Bitmap.removeAll_eq_filter (nf : List Nat) (s : Bitmap) :
    nf.foldl Bitmap.Remove s = s.filter (fun y => decide (y ∉ nf)) := by
  induction nf generalizing s with
  | nil => simp
  | cons x nf ih =>
    rw [List.foldl_cons, ih, Bitmap.Remove, List.filter_filter]
    congr 1
    funext y
    simp only [List.mem_cons, not_or, ne_eq, decide_not, Bool.decide_and]
    rw [Bool.and_comm]

theorem Bitmap.removeAll_idem (nf : List Nat) (s : Bitmap) :
    nf.foldl Bitmap.Remove (nf.foldl Bitmap.Remove s) = nf.foldl Bitmap.Remove s := by
  rw [Bitmap.removeAll_eq_filter, Bitmap.removeAll_eq_filter, List.filter_filter]
  congr 1
  funext y
  simp

theorem FilterOK_clean {l : SkipList V} {test : V → F → Bool} {i : Nat} {k : F} {f : filter}
    (h : FilterOK l test i k f) (nf : List Nat) (hnf : ∀ id ∈ nf, ∀ e ∈ l, e.id ≠ id) :
    FilterOK l test i k { f with set := nf.foldl Bitmap.Remove f.set } where
  le := h.le
  sorted := Bitmap.sorted_removeAll nf f.set h.sorted
  lt := fun id hid => h.lt id ((Bitmap.mem_removeAll nf f.set id).1 hid).1
  sound := fun e he hid => h.sound e he ((Bitmap.mem_removeAll nf f.set e.id).1 hid).1
  complete := fun e he hlt ht =>
    (Bitmap.mem_removeAll nf f.set e.id).2
      ⟨h.complete e he hlt ht, fun hmem => hnf e.id hmem e he rfl⟩

theorem Inv_cleanup {sf : SkipFilter V F} (h : Inv sf) (ks : List F) (nf : List Nat)
    (hnf : ∀ id ∈ nf, ∀ e ∈ sf.list, e.id ≠ id) :
    Inv { sf with cache := cleanup sf.cache ks nf } := by
  induction ks generalizing sf with
  | nil => exact h
  | cons k ks ih =>
    unfold cleanup
    rw [List.foldl_cons]
    cases hget : sf.cache.GetIfPresent k with
    | none => exact ih h hnf
    | some f =>
      have hok := FilterOK_clean (h.cache_ok k f (mapGet_mem _ _ _ hget)) nf hnf
      exact ih (Inv_setCache h k _ hok) hnf

theorem cleanup_get (c : Cache F) (ks : List F) (nf : List Nat) (k : F) :
    (cleanup c ks nf).GetIfPresent k =
      (c.GetIfPresent k).map (fun f =>
        if k ∈ ks then { f with set := nf.foldl Bitmap.Remove f.set } else f) := by
  induction ks generalizing c with
  | nil => simp [cleanup]
  | cons k1 ks ih =>
    unfold cleanup
    rw [List.foldl_cons]
    have ih' := fun c => ih c
    unfold cleanup at ih'
    rw [ih']
    cases hget : c.GetIfPresent k1 with
    | none =>
      simp only
      by_cases hk : k = k1
      · subst hk; rw [hget]; rfl
      · simp only [List.mem_cons, hk, false_or]
    | some f1 =>
      simp only
      by_cases hk : k = k1
      · subst hk
        have : (c.Set k { f1 with set := nf.foldl Bitmap.Remove f1.set }).GetIfPresent k
            = some { f1 with set := nf.foldl Bitmap.Remove f1.set } := mapGet_mapSet_self _ _ _
        rw [this, hget]
        simp only [Option.map_some', List.mem_cons, true_or, if_true]
        split_ifs
        · rw [Bitmap.removeAll_idem]
        · rfl
      · have : (c.Set k1 { f1 with set := nf.foldl Bitmap.Remove f1.set }).GetIfPresent k
            = c.GetIfPresent k := by
          show mapGet (mapSet _ _ _) k = _
          rw [mapGet_mapSet, if_neg hk]; rfl
        rw [this]
        simp only [List.mem_cons, hk, false_or]

end Filters

section Query
variable {V F : Type} [DecidableEq V] [DecidableEq F]

theorem mem_of_map_some {A K : Type} (fs : List A) (ks : List K) (g : K → Option A)
    (hmap : fs.map some = ks.map g) (f : A) : f ∈ fs ↔ ∃ k ∈ ks, g k = some f := by
  have h1 : f ∈ fs ↔ some f ∈ fs.map some := by simp
  rw [h1, hmap, List.mem_map]

/-- The values `getValues` returns for an ascending set of ids: the values of the live
elements whose id is in the set, in the order of the ordered index. -/
theorem getValues_spec {sf : SkipFilter V F} (h : Inv sf) (U : Bitmap)
    (hU : U.Pairwise (· < ·)) :
    ∃ nf, getValues sf U = some ((sf.list.filter (fun e => decide (e.id ∈ U))).map entry.val, nf)
      ∧ ∀ id, id ∈ nf ↔ id ∈ U ∧ ∀ e ∈ sf.list, e.id ≠ id := by
  refine ⟨_, ?_, fun id => notfound_eq_filter sf.list h.exact U id⟩
  rw [getValues_eq, ← found_eq_filter sf.list h.sorted h.exact U hU, List.map_filterMap]

/-- The outcome of `MatchAny` from a state with the invariant. -/
theorem MatchAny_spec {sf : SkipFilter V F} (h : Inv sf) (ks : List F) :
    ∃ sf', MatchAny sf ks = some (sf',
        (sf.list.filter (fun e => ks.any (fun k => sf.test e.val k))).map entry.val) ∧
      Inv sf' ∧ sf'.list = sf.list ∧ sf'.i = sf.i ∧ sf'.idx = sf.idx ∧ sf'.test = sf.test ∧
      (∀ k ∈ ks, ∃ f, sf'.cache.GetIfPresent k = some f ∧ f.i = sf.i ∧
        ∀ id ∈ f.set, ∃ e ∈ sf.list, e.id = id) := by
  obtain ⟨sf1, fs, hfs, hinv1, hl1, hi1, hidx1, ht1, hmap, hall, -, -⟩ := getFilters_spec h ks
  have hU := sorted_ParOr (fs.map filter.set)
  obtain ⟨nf, hval, hnf⟩ := getValues_spec hinv1 (ParOr (fs.map filter.set)) hU
  have hmemU : ∀ id, id ∈ ParOr (fs.map filter.set) ↔
      ∃ k ∈ ks, ∃ f, sf1.cache.GetIfPresent k = some f ∧ id ∈ f.set := by
    intro id
    rw [mem_ParOr]
    constructor
    · rintro ⟨s, hs, hid⟩
      obtain ⟨f, hf, rfl⟩ := List.mem_map.1 hs
      obtain ⟨k, hk, hg⟩ := (mem_of_map_some fs ks _ hmap f).1 hf
      exact ⟨k, hk, f, hg, hid⟩
    · rintro ⟨k, hk, f, hg, hid⟩
      exact ⟨f.set, List.mem_map.2 ⟨f, (mem_of_map_some fs ks _ hmap f).2 ⟨k, hk, hg⟩, rfl⟩, hid⟩
  have hfilter : sf1.list.filter (fun e => decide (e.id ∈ ParOr (fs.map filter.set)))
      = sf.list.filter (fun e => ks.any (fun k => sf.test e.val k)) := by
    rw [hl1]
    apply List.filter_congr
    intro e he
    rw [Bool.eq_iff_iff, decide_eq_true_eq, hmemU, List.any_eq_true]
    constructor
    · rintro ⟨k, hk, f, hg, hid⟩
      have hok := hinv1.cache_ok k f (mapGet_mem _ _ _ hg)
      rw [ht1] at hok
      exact ⟨k, hk, hok.sound e (hl1 ▸ he) hid⟩
    · rintro ⟨k, hk, htest⟩
      obtain ⟨f, hg, hfi⟩ := hall k hk
      have hok := hinv1.cache_ok k f (mapGet_mem _ _ _ hg)
      rw [ht1] at hok
      exact ⟨k, hk, f, hg, hok.complete e (hl1 ▸ he) (hfi ▸ h.ids_lt e he) htest⟩
  rw [hfilter] at hval
  have hlive : ∀ id, id ∈ ParOr (fs.map filter.set) → id ∉ nf → ∃ e ∈ sf.list, e.id = id := by
    intro id hid hn
    by_contra hcon
    push_neg at hcon
    exact hn ((hnf id).2 ⟨hid, hl1 ▸ hcon⟩)
  by_cases hpos : 0 < nf.length
  · refine ⟨{ sf1 with cache := cleanup sf1.cache ks nf }, ?_, ?_, hl1, hi1, hidx1, ht1, ?_⟩
    · unfold MatchAny
      simp only [hfs, hval, hpos, if_true]
    · exact Inv_cleanup hinv1 ks nf (fun id hid => ((hnf id).1 hid).2)
    · intro k hk
      obtain ⟨f, hg, hfi⟩ := hall k hk
      refine ⟨{ f with set := nf.foldl Bitmap.Remove f.set }, ?_, hfi, ?_⟩
      · show (cleanup sf1.cache ks nf).GetIfPresent k = _
        rw [cleanup_get, hg]
        simp [hk]
      · intro id hid
        obtain ⟨h1, h2⟩ := (Bitmap.mem_removeAll nf f.set id).1 hid
        exact hlive id ((hmemU id).2 ⟨k, hk, f, hg, h1⟩) h2
  · refine ⟨sf1, ?_, hinv1, hl1, hi1, hidx1, ht1, ?_⟩
    · unfold MatchAny
      simp only [hfs, hval, hpos, if_false]
    · intro k hk
      obtain ⟨f, hg, hfi⟩ := hall k hk
      refine ⟨f, hg, hfi, ?_⟩
      intro id hid
      have hnil : nf = [] := List.eq_nil_of_length_eq_zero (by omega)
      exact hlive id ((hmemU id).2 ⟨k, hk, f, hg, hid⟩) (by rw [hnil]; simp)

/-- A call of `MatchAny` whose filters are current and hold live ids only finds no stale
id and leaves the state as it is. -/
theorem MatchAny_clean {sf : SkipFilter V F} (h : Inv sf) (ks : List F)
    (hclean : ∀ k ∈ ks, ∃ f, sf.cache.GetIfPresent k = some f ∧ ¬ f.i < sf.i ∧
      ∀ id ∈ f.set, ∃ e ∈ sf.list, e.id = id) :
    staleIds sf ks = some [] ∧
    MatchAny sf ks = some (sf,
      (sf.list.filter (fun e => ks.any (fun k => sf.test e.val k))).map entry.val) := by
  obtain ⟨sf1, fs, hfs, hinv1, -, -, -, -, hmap, -, -, hsame⟩ := getFilters_spec h ks
  have hsf1 : sf1 = sf := hsame (fun k hk => by
    obtain ⟨f, hf, hn, -⟩ := hclean k hk
    exact ⟨f, hf, hn⟩)
  subst hsf1
  have hU := sorted_ParOr (fs.map filter.set)
  obtain ⟨nf, hval, hnf⟩ := getValues_spec hinv1 (ParOr (fs.map filter.set)) hU
  have hnil : nf = [] := by
    apply List.eq_nil_iff_forall_not_mem.2
    intro id hid
    obtain ⟨hidU, hdead⟩ := (hnf id).1 hid
    obtain ⟨s, hs, hids⟩ := (mem_ParOr _ _).1 hidU
    obtain ⟨f, hf, rfl⟩ := List.mem_map.1 hs
    obtain ⟨k, hk, hg⟩ := (mem_of_map_some fs ks _ hmap f).1 hf
    obtain ⟨f', hf', -, hlive⟩ := hclean k hk
    rw [hg] at hf'
    simp only [Option.some.injEq] at hf'
    subst hf'
    obtain ⟨e, he, heid⟩ := hlive id hids
    exact hdead e he heid
  subst hnil
  obtain ⟨sf', hm, -⟩ := MatchAny_spec h ks
  constructor
  · unfold staleIds
    simp only [hfs, hval, Option.map_some']
  · have hm2 : MatchAny sf1 ks = some (sf1, (sf1.list.filter (fun e =>
        decide (e.id ∈ ParOr (fs.map filter.set)))).map entry.val) := by
      unfold MatchAny
      simp only [hfs, hval, List.length_nil, Nat.lt_irrefl, if_false]
    rw [hm2] at hm
    simp only [Option.some.injEq, Prod.mk.injEq] at hm
    rw [hm2, hm.2]

end Query

section Executions
variable {V F : Type} [DecidableEq V] [DecidableEq F]

/-! ## Walk -/

/-- The outcome of `Walk` from a state with the invariant. -/
theorem Walk_spec {sf : SkipFilter V F} (h : Inv sf) (start : Nat)
    (callback : List V → V → Bool) :
    Walk sf start callback
      = some (match sf.list.filter (fun e => decide (start ≤ e.id)) with
          | [] => (start, [])
          | e :: rest => walkRef callback (e :: rest) 0 []) :=
  walk_eq callback sf.list h.sorted h.exact start

/-! ## Executions -/

theorem Remove_frame (sf : SkipFilter V F) (v : V) :
    (Remove sf v).i = sf.i ∧ (Remove sf v).cache = sf.cache ∧ (Remove sf v).test = sf.test := by
  unfold Remove
  cases mapGet sf.idx v <;> exact ⟨rfl, rfl, rfl⟩

/-- One step from a state with the invariant returns, in a state with the invariant. -/
theorem step_spec {sf : SkipFilter V F} (h : Inv sf) (op : Op V F)
    (hb : sf.i + countAdds [op] < idLimit) :
    ∃ sf', step sf op = some sf' ∧ Inv sf' ∧ sf'.test = sf.test ∧
      sf'.i = sf.i + countAdds [op] := by
  cases op with
  | add v =>
    have hb' : sf.i + 1 < idLimit := by simpa [countAdds] using hb
    exact ⟨Add sf v, rfl, Inv_Add h hb' v, rfl, by rw [Add_i hb']; simp [countAdds]⟩
  | remove v =>
    exact ⟨Remove sf v, rfl, Inv_Remove h v, (Remove_frame sf v).2.2, (Remove_frame sf v).1⟩
  | matchAny ks =>
    obtain ⟨sf', hm, hinv, -, hi, -, ht, -⟩ := MatchAny_spec h ks
    exact ⟨sf', by simp [step, hm], hinv, ht, hi⟩
  | walk start callback =>
    exact ⟨sf, by simp [step, Walk_spec h], h, rfl, rfl⟩
  | getFilter k =>
    obtain ⟨hinv, -, hi, -, ht, -⟩ := getFilterRef_spec h k
    exact ⟨(getFilterRef sf k).1, by simp [step, getFilter_eq h], hinv, ht, hi⟩
  | evict k =>
    exact ⟨_, rfl, Inv_evict h k, rfl, rfl⟩

theorem countAdds_cons (op : Op V F) (ops : List (Op V F)) :
    countAdds (op :: ops) = countAdds [op] + countAdds ops := by
  cases op <;> simp [countAdds]
  omega

/-- A sequence of steps with few enough calls of `Add` returns, in a state with the
invariant; the allocator has advanced by the number of calls of `Add`. -/
theorem run_spec (ops : List (Op V F)) :
    ∀ {sf : SkipFilter V F}, Inv sf → sf.i + countAdds ops < idLimit →
    ∃ sf', run sf ops = some sf' ∧ Inv sf' ∧ sf'.test = sf.test ∧
      sf'.i = sf.i + countAdds ops := by
  induction ops with
  | nil => intro sf h _; exact ⟨sf, rfl, h, rfl, rfl⟩
  | cons op ops ih =>
    intro sf h hb
    have hc := countAdds_cons op ops
    rw [hc] at hb
    obtain ⟨sf1, hs, hinv, ht, hi⟩ := step_spec h op (by omega)
    obtain ⟨sf', hr, hinv', ht', hi'⟩ := ih hinv (by omega)
    refine ⟨sf', ?_, hinv', ht'.trans ht, ?_⟩
    · unfold run; rw [hs]; exact hr
    · rw [hi', hi, hc]; omega

theorem New_i (test : V → F → Bool) (n : Int) : (New test n).i = 0 := rfl

/-- Every reachable state has the invariant and the test it was made with. -/
theorem Reachable.inv {test : V → F → Bool} {n : Int} {sf : SkipFilter V F}
    (h : Reachable test n sf) : Inv sf ∧ sf.test = test := by
  obtain ⟨ops, hb, hr⟩ := h
  obtain ⟨sf', hr', hinv, ht, -⟩ := run_spec ops (Inv_New test n)
    (by rw [New_i]; omega)
  rw [hr] at hr'
  simp only [Option.some.injEq] at hr'
  subst hr'
  exact ⟨hinv, ht⟩

theorem run_append (ops1 ops2 : List (Op V F)) (sf : SkipFilter V F) :
    run sf (ops1 ++ ops2) = (run sf ops1).bind (fun sf1 => run sf1 ops2) := by
  induction ops1 generalizing sf with
  | nil => rfl
  | cons op ops ih =>
    simp only [List.cons_append, run]
    cases step sf op with
    | none => rfl
    | some sf1 => exact ih sf1

theorem countAdds_append (ops1 ops2 : List (Op V F)) :
    countAdds (ops1 ++ ops2) = countAdds ops1 + countAdds ops2 := by
  induction ops1 with
  | nil => simp [countAdds]
  | cons op ops ih =>
    have h1 := countAdds_cons op (ops ++ ops2)
    have h2 := countAdds_cons op ops
    rw [List.cons_append, h1, ih, h2]; omega

end Executions

section Matching
variable {V F : Type} [DecidableEq V] [DecidableEq F]

theorem reachable_stateAdded : Reachable divides 10 stateAdded :=
  ⟨[.add 2, .add 3, .add 4], by decide, rfl⟩

theorem reachable_stateRemoved : Reachable divides 10 stateRemoved :=
  ⟨[.add 2, .add 3, .add 4, .matchAny [2], .remove 2], by decide, rfl⟩

theorem reachable_stateTwice : Reachable divides 10 stateTwice :=
  ⟨[.add 2, .add 2], by decide, rfl⟩

/-- C1: from every reachable state and for every key, `MatchAny(k)` returns, and returns
exactly the values of the elements of the ordered index that pass the test for `k`. -/
theorem C1_matchAny_exact (test : V → F → Bool) (n : Int) (sf : SkipFilter V F)
    (h : Reachable test n sf) (k : F) :
    ∃ sf', MatchAny sf [k]
      = some (sf', (sf.list.filter (fun e => test e.val k)).map entry.val) := by
  obtain ⟨hinv, ht⟩ := h.inv
  obtain ⟨sf', hm, -⟩ := MatchAny_spec hinv [k]
  refine ⟨sf', ?_⟩
  rw [hm, ht]
  simp

theorem C1_matchAny_exact_witness :
    (∃ sf', MatchAny stateAdded [2] = some (sf', [2, 4])) ∧
    (∃ sf', MatchAny stateRemoved [2] = some (sf', [4])) :=
  ⟨C1_matchAny_exact divides 10 stateAdded reachable_stateAdded 2,
   C1_matchAny_exact divides 10 stateRemoved reachable_stateRemoved 2⟩

end Matching

section UnionWalk
variable {V F : Type} [DecidableEq V] [DecidableEq F]

/-! ## Union -/

/-- C2, as the claim states it, fails: after `Add(2)`, `Add(2)` the call
`MatchAny(1, 2)` returns the slice `[2, 2]`, which has a duplicate. -/
theorem C2_union_counterexample :
    Reachable divides 10 stateTwice ∧
    (MatchAny stateTwice [1, 2]).map Prod.snd = some [2, 2] ∧
    ¬ ([2, 2] : List Nat).Nodup :=
  ⟨reachable_stateTwice, by decide, by decide⟩

/-- C2, amended: from every reachable state the calls `MatchAny(k1)`, `MatchAny(k2)` and
`MatchAny(k1, k2)`, made one after the other, return; a value is returned by the third
exactly when it is returned by the first or by the second; the third returns the values
of pairwise distinct elements of the ordered index, each element once; and it has no
duplicate when the values in the ordered index are distinct. -/
theorem C2_union (test : V → F → Bool) (n : Int) (sf : SkipFilter V F)
    (h : Reachable test n sf) (k1 k2 : F) :
    ∃ s1 v1 s2 v2 s3 v12,
      MatchAny sf [k1] = some (s1, v1) ∧ MatchAny s1 [k2] = some (s2, v2) ∧
      MatchAny s2 [k1, k2] = some (s3, v12) ∧
      (∀ v, v ∈ v12 ↔ v ∈ v1 ∨ v ∈ v2) ∧
      (∃ es : List (entry V), es.Sublist sf.list ∧ SortedById es ∧ es.Nodup ∧
        v12 = es.map entry.val) ∧
      ((sf.list.map entry.val).Nodup → v12.Nodup) := by
  obtain ⟨hinv, ht⟩ := h.inv
  obtain ⟨s1, hm1, hinv1, hl1, -, -, ht1, -⟩ := MatchAny_spec hinv [k1]
  obtain ⟨s2, hm2, hinv2, hl2, -, -, ht2, -⟩ := MatchAny_spec hinv1 [k2]
  obtain ⟨s3, hm3, -⟩ := MatchAny_spec hinv2 [k1, k2]
  rw [hl2, hl1, ht2, ht1, ht] at hm3
  rw [hl1, ht1, ht] at hm2
  rw [ht] at hm1
  refine ⟨s1, _, s2, _, s3, _, hm1, hm2, hm3, ?_, ⟨_, List.filter_sublist _, ?_, ?_, rfl⟩, ?_⟩
  · intro v
    simp only [List.mem_map, List.mem_filter, List.any_cons, List.any_nil, Bool.or_false,
      Bool.or_eq_true]
    constructor
    · rintro ⟨e, ⟨he, h1 | h2⟩, rfl⟩
      · exact Or.inl ⟨e, ⟨he, h1⟩, rfl⟩
      · exact Or.inr ⟨e, ⟨he, h2⟩, rfl⟩
    · rintro (⟨e, ⟨he, h1⟩, rfl⟩ | ⟨e, ⟨he, h2⟩, rfl⟩)
      · exact ⟨e, ⟨he, Or.inl h1⟩, rfl⟩
      · exact ⟨e, ⟨he, Or.inr h2⟩, rfl⟩
  · exact List.Pairwise.sublist (List.filter_sublist _) hinv.sorted
  · exact SortedById.nodup (List.Pairwise.sublist (List.filter_sublist _) hinv.sorted)
  · intro hnd
    exact List.Nodup.sublist (List.Sublist.map _ (List.filter_sublist _)) hnd

theorem C2_union_witness :
    ∃ s1 v1 s2 v2 s3 v12,
      MatchAny stateAdded [2] = some (s1, v1) ∧ MatchAny s1 [3] = some (s2, v2) ∧
      MatchAny s2 [2, 3] = some (s3, v12) ∧
      (∀ v, v ∈ v12 ↔ v ∈ v1 ∨ v ∈ v2) ∧
      (∃ es : List (entry Nat), es.Sublist stateAdded.list ∧ SortedById es ∧ es.Nodup ∧
        v12 = es.map entry.val) ∧
      ((stateAdded.list.map entry.val).Nodup → v12.Nodup) :=
  C2_union divides 10 stateAdded reachable_stateAdded 2 3

/-! ## Walk -/

theorem walkRef_always (suf : List (entry V)) (prev : Nat) (visited : List (entry V)) :
    (walkRef (always V) suf prev visited).2 = visited ++ suf := by
  induction suf generalizing prev visited with
  | nil => simp [walkRef]
  | cons e rest ih =>
    unfold walkRef
    simp only [always, if_true]
    rw [ih]
    simp

theorem Walk_always {sf : SkipFilter V F} (h : Inv sf) (start : Nat) :
    ∃ ret, Walk sf start (always V)
      = some (ret, sf.list.filter (fun e => decide (start ≤ e.id))) := by
  rw [Walk_spec h]
  cases hf : sf.list.filter (fun e => decide (start ≤ e.id)) with
  | nil => exact ⟨start, rfl⟩
  | cons e rest =>
    refine ⟨(walkRef (always V) (e :: rest) 0 []).1, ?_⟩
    have := walkRef_always (e :: rest) 0 []
    simp only [List.nil_append] at this
    simp only [Option.some.injEq]
    exact Prod.ext rfl this

/-- C3: from every reachable state, `Walk(start, visitor)` with a visitor that never
stops returns, and calls the visitor on exactly the elements of the ordered index with an
id of at least `start`, in the order of the index, which is strictly ascending in the id
(so each element is visited once); with `start = 0` these are all the elements. -/
theorem C3_walk_complete (test : V → F → Bool) (n : Int) (sf : SkipFilter V F)
    (h : Reachable test n sf) (start : Nat) :
    (∃ ret, Walk sf start (always V)
      = some (ret, sf.list.filter (fun e => decide (start ≤ e.id)))) ∧
    (∃ ret, Walk sf 0 (always V) = some (ret, sf.list)) ∧
    SortedById sf.list ∧ (sf.list.map entry.id).Nodup := by
  obtain ⟨hinv, -⟩ := h.inv
  refine ⟨Walk_always hinv start, ?_, hinv.sorted, ?_⟩
  · obtain ⟨ret, hw⟩ := Walk_always hinv 0
    refine ⟨ret, ?_⟩
    rw [hw]
    simp
  · have : (sf.list.map entry.id).Pairwise (· < ·) := List.pairwise_map.2 hinv.sorted
    exact List.Pairwise.imp (fun hab => Nat.ne_of_lt hab) this

theorem C3_walk_complete_witness :
    (∃ ret, Walk stateAdded 1 (always Nat)
      = some (ret, [{ id := 1, val := 3 }, { id := 2, val := 4 }])) ∧
    (∃ ret, Walk stateAdded 0 (always Nat) = some (ret, stateAdded.list)) ∧
    SortedById stateAdded.list ∧ (stateAdded.list.map entry.id).Nodup :=
  C3_walk_complete divides 10 stateAdded reachable_stateAdded 1

end UnionWalk

section Resume
variable {V F : Type} [DecidableEq V] [DecidableEq F]

/-- The elements the loop of `Walk` visits are a first part of the elements it runs
over, and an element the callback refuses is the last one visited and decides the
returned id. -/
theorem walkRef_stop (callback : List V → V → Bool) :
    ∀ (suf : List (entry V)) (prev : Nat) (visited : List (entry V)) (ret : Nat)
      (out : List (entry V)), walkRef callback suf prev visited = (ret, out) →
    ∃ taken rest, suf = taken ++ rest ∧ out = visited ++ taken ∧
      ∀ pre x post, taken = pre ++ x :: post →
        callback ((visited ++ pre).map entry.val) x.val = false →
        post = [] ∧ ret = (x.id + 1) % uint64Size := by
  intro suf
  induction suf with
  | nil =>
    intro prev visited ret out h
    unfold walkRef at h
    simp only [Prod.mk.injEq] at h
    refine ⟨[], [], rfl, by simp [h.2], ?_⟩
    intro pre x post hp
    simp at hp
  | cons e rest ih =>
    intro prev visited ret out h
    unfold walkRef at h
    by_cases hcb : callback (visited.map entry.val) e.val = true
    · rw [if_pos hcb] at h
      obtain ⟨taken, rest', hsuf, hout, hprop⟩ := ih _ _ _ _ h
      refine ⟨e :: taken, rest', by rw [hsuf]; rfl, by rw [hout]; simp, ?_⟩
      intro pre x post hp hfalse
      cases pre with
      | nil =>
        simp only [List.nil_append, List.cons.injEq] at hp
        rw [← hp.1, List.append_nil, hcb] at hfalse
        exact absurd hfalse (by simp)
      | cons p pre' =>
        simp only [List.cons_append, List.cons.injEq] at hp
        apply hprop pre' x post hp.2
        rw [← hp.1] at hfalse
        simpa using hfalse
    · rw [if_neg hcb] at h
      simp only [Prod.mk.injEq] at h
      refine ⟨[e], rest, rfl, h.2.symm, ?_⟩
      intro pre x post hp _
      cases pre with
      | nil =>
        simp only [List.nil_append, List.cons.injEq] at hp
        exact ⟨hp.2.symm, by rw [← hp.1]; exact h.1.symm⟩
      | cons p pre' =>
        simp only [List.cons_append, List.cons.injEq] at hp
        exact absurd hp.2 (by simp)

/-- The loop of `Walk` stops on the first element the callback refuses: it has visited
the elements before it and that element, and returns its id plus 1. -/
theorem walkRef_pin (callback : List V → V → Bool) (e : entry V) (post : List (entry V)) :
    ∀ (pre : List (entry V)) (prev : Nat) (visited : List (entry V)),
    (∀ p x q, pre = p ++ x :: q → callback ((visited ++ p).map entry.val) x.val = true) →
    callback ((visited ++ pre).map entry.val) e.val = false →
    walkRef callback (pre ++ e :: post) prev visited
      = ((e.id + 1) % uint64Size, visited ++ pre ++ [e]) := by
  intro pre
  induction pre with
  | nil =>
    intro prev visited _ hfalse
    simp only [List.append_nil] at hfalse
    simp only [List.nil_append, List.append_nil]
    unfold walkRef
    rw [if_neg (by rw [hfalse]; simp)]
  | cons a pre ih =>
    intro prev visited htrue hfalse
    have h0 : callback (visited.map entry.val) a.val = true := by
      have := htrue [] a pre rfl
      simpa using this
    rw [List.cons_append]
    unfold walkRef
    rw [if_pos h0, ih a.id (visited ++ [a])]
    · simp
    · intro p x q hp
      have := htrue (a :: p) x q (by rw [hp]; rfl)
      simpa using this
    · simpa using hfalse

/-- The elements a walk resumed after `e` starts from: those after `e`. -/
theorem resume_filter {sf : SkipFilter V F} (h : Inv sf) (start : Nat)
    (pre rest : List (entry V)) (e : entry V)
    (hsplit : sf.list.filter (fun x => decide (start ≤ x.id)) = (pre ++ [e]) ++ rest) :
    sf.list.filter (fun x => decide (e.id + 1 ≤ x.id)) = rest := by
  have hsortf : SortedById (sf.list.filter (fun x => decide (start ≤ x.id))) :=
    List.Pairwise.sublist (List.filter_sublist _) h.sorted
  have hmem : e ∈ sf.list.filter (fun x => decide (start ≤ x.id)) := by
    rw [hsplit]; simp
  have hge := (List.mem_filter.1 hmem).2
  simp only [decide_eq_true_eq] at hge
  have hff : sf.list.filter (fun x => decide (e.id + 1 ≤ x.id))
      = (sf.list.filter (fun x => decide (start ≤ x.id))).filter
          (fun x => decide (e.id + 1 ≤ x.id)) := by
    rw [List.filter_filter]
    apply List.filter_congr
    intro y _
    rw [Bool.eq_iff_iff]
    simp only [decide_eq_true_eq, Bool.and_eq_true]
    constructor
    · intro hy; exact ⟨hy, by omega⟩
    · intro hy; exact hy.1
  rw [hff, hsplit]
  rw [hsplit] at hsortf
  have hpw := List.pairwise_append.1 hsortf
  rw [filter_ge_of_split (pre ++ [e]) rest (e.id + 1)]
  · intro y hy
    have := SortedById.le_last hpw.1 y hy
    omega
  · intro y hy
    exact hpw.2.2 e (by simp) y hy

theorem id_succ_mod {sf : SkipFilter V F} (h : Inv sf) {e : entry V} (he : e ∈ sf.list) :
    (e.id + 1) % uint64Size = e.id + 1 := by
  have h1 := h.ids_lt e he
  have h2 := h.bound
  apply Nat.mod_eq_of_lt
  unfold idLimit at h2
  unfold uint64Size
  omega

/-- C4: from every reachable state `Walk` returns for every start and visitor. An element
the visitor refuses is the last one visited, and the call returns its id plus 1. When,
of the elements with an id of at least `start`, the visitor accepts those before `e` and
refuses `e`, the call visits exactly these elements and `e` and returns `e.id + 1`; a
never stopping walk from `e.id + 1` then visits exactly the elements after `e`, so that
the two calls together visit what a never stopping walk from `start` visits, each
element once. -/
theorem C4_walk_resume (test : V → F → Bool) (n : Int) (sf : SkipFilter V F)
    (h : Reachable test n sf) (start : Nat) (callback : List V → V → Bool) :
    (∃ r, Walk sf start callback = some r) ∧
    (∀ (ret : Nat) (visited pre : List (entry V)) (e : entry V) (post : List (entry V)),
      Walk sf start callback = some (ret, visited) → visited = pre ++ e :: post →
      callback (pre.map entry.val) e.val = false →
      post = [] ∧ ret = e.id + 1 ∧
      ∃ r2 rest r3, Walk sf (e.id + 1) (always V) = some (r2, rest) ∧
        Walk sf start (always V) = some (r3, visited ++ rest)) ∧
    (∀ (pre : List (entry V)) (e : entry V) (post : List (entry V)),
      sf.list.filter (fun x => decide (start ≤ x.id)) = pre ++ e :: post →
      (∀ p x q, pre = p ++ x :: q → callback (p.map entry.val) x.val = true) →
      callback (pre.map entry.val) e.val = false →
      Walk sf start callback = some (e.id + 1, pre ++ [e]) ∧
      ∃ r2 r3, Walk sf (e.id + 1) (always V) = some (r2, post) ∧
        Walk sf start (always V) = some (r3, pre ++ e :: post)) := by
  obtain ⟨hinv, -⟩ := h.inv
  obtain ⟨r3, hstart⟩ := Walk_always hinv start
  refine ⟨⟨_, Walk_spec hinv start callback⟩, ?_, ?_⟩
  · intro ret visited pre e post hw hvis hfalse
    rw [Walk_spec hinv] at hw
    cases hf : sf.list.filter (fun x => decide (start ≤ x.id)) with
    | nil =>
      rw [hf] at hw
      simp only [Option.some.injEq, Prod.mk.injEq] at hw
      rw [← hw.2] at hvis
      simp at hvis
    | cons x xs =>
      rw [hf] at hw
      simp only [Option.some.injEq] at hw
      obtain ⟨taken, rest, hsuf, hout, hprop⟩ := walkRef_stop callback _ _ _ _ _ hw
      simp only [List.nil_append] at hout hprop
      obtain ⟨hpost, hret⟩ := hprop pre e post (by rw [← hout, hvis]) hfalse
      subst hpost
      have hsplit : sf.list.filter (fun x => decide (start ≤ x.id))
          = (pre ++ [e]) ++ rest := by
        rw [hf, hsuf, ← hout, hvis]
      have hmem : e ∈ sf.list := by
        have : e ∈ sf.list.filter (fun x => decide (start ≤ x.id)) := by
          rw [hsplit]; simp
        exact List.mem_of_mem_filter this
      obtain ⟨r2, hnext⟩ := Walk_always hinv (e.id + 1)
      rw [resume_filter hinv start pre rest e hsplit] at hnext
      refine ⟨rfl, by rw [hret, id_succ_mod hinv hmem], r2, rest, r3, hnext, ?_⟩
      rw [hstart, hsplit, hvis]
  · intro pre e post hsplit htrue hfalse
    have hmem : e ∈ sf.list := by
      have : e ∈ sf.list.filter (fun x => decide (start ≤ x.id)) := by
        rw [hsplit]; simp
      exact List.mem_of_mem_filter this
    have hsplit' : sf.list.filter (fun x => decide (start ≤ x.id))
        = (pre ++ [e]) ++ post := by
      rw [hsplit]; simp
    obtain ⟨r2, hnext⟩ := Walk_always hinv (e.id + 1)
    rw [resume_filter hinv start pre post e hsplit'] at hnext
    refine ⟨?_, r2, r3, hnext, by rw [hstart, hsplit]⟩
    have hw := Walk_spec hinv start callback
    have hpin := walkRef_pin callback e post pre 0 [] (by simpa using htrue)
      (by simpa using hfalse)
    simp only [List.nil_append] at hpin
    rw [hsplit] at hw
    cases pre with
    | nil =>
      simp only [List.nil_append] at hw hpin ⊢
      rw [hw, hpin, id_succ_mod hinv hmem]
    | cons a pre' =>
      simp only [List.cons_append] at hw hpin ⊢
      rw [hw, hpin, id_succ_mod hinv hmem]

theorem C4_walk_resume_witness :
    (([] : List (entry Nat)) = [] ∧ 2 = ({ id := 1, val := 3 } : entry Nat).id + 1 ∧
      ∃ r2 rest r3,
        Walk stateAdded (({ id := 1, val := 3 } : entry Nat).id + 1) (always Nat)
          = some (r2, rest) ∧
        Walk stateAdded 0 (always Nat)
          = some (r3, [{ id := 0, val := 2 }, { id := 1, val := 3 }] ++ rest)) ∧
    (Walk stateAdded 0 (fun seen _ => decide (seen.length < 1))
        = some (({ id := 1, val := 3 } : entry Nat).id + 1,
            [{ id := 0, val := 2 }] ++ [{ id := 1, val := 3 }]) ∧
      ∃ r2 r3,
        Walk stateAdded (({ id := 1, val := 3 } : entry Nat).id + 1) (always Nat)
          = some (r2, [{ id := 2, val := 4 }]) ∧
        Walk stateAdded 0 (always Nat)
          = some (r3, [{ id := 0, val := 2 }] ++ { id := 1, val := 3 }
              :: [{ id := 2, val := 4 }])) :=
  ⟨(C4_walk_resume divides 10 stateAdded reachable_stateAdded 0
      (fun seen _ => decide (seen.length < 1))).2.1 2
      [{ id := 0, val := 2 }, { id := 1, val := 3 }] [{ id := 0, val := 2 }]
      { id := 1, val := 3 } [] rfl rfl rfl,
   (C4_walk_resume divides 10 stateAdded reachable_stateAdded 0
      (fun seen _ => decide (seen.length < 1))).2.2 [{ id := 0, val := 2 }]
      { id := 1, val := 3 } [{ id := 2, val := 4 }] rfl
      (by
        intro p x q hp
        cases p with
        | nil => rfl
        | cons a p' => simp at hp)
      rfl⟩

/-! ## Identifiers -/

theorem assignedIds_spec (ops : List (Op V F)) :
    ∀ {sf : SkipFilter V F}, Inv sf → sf.i + countAdds ops < idLimit →
    assignedIds sf ops = List.range' sf.i (countAdds ops) := by
  induction ops with
  | nil => intro sf _ _; rfl
  | cons op ops ih =>
    intro sf h hb
    have hc := countAdds_cons op ops
    rw [hc] at hb
    obtain ⟨sf1, hs, hinv, -, hi⟩ := step_spec h op (by omega)
    have hrec := ih hinv (by omega)
    unfold assignedIds
    rw [hs]
    cases op with
    | add v =>
      simp only [hrec, hi]
      simp [countAdds, List.range'_succ]
    | remove v => simpa [countAdds, hi] using hrec
    | matchAny ks => simpa [countAdds, hi] using hrec
    | walk start callback => simpa [countAdds, hi] using hrec
    | getFilter k => simpa [countAdds, hi] using hrec
    | evict k => simpa [countAdds, hi] using hrec

/-- C5: a sequence of calls with fewer than `idLimit` calls of `Add` (no overflow of the
allocator) returns; the ids its calls of `Add` assign are `0, 1, 2, ...` in call order,
so the k-th `Add` assigns `k - 1`; the allocator is then the number of `Add` calls and is
above the id of every element of the ordered index, whose ids are strictly ascending;
`Remove` does not change the allocator, and `Add` inserts an element with the allocator
as id and increments the allocator. -/
theorem C5_monotonic_ids (test : V → F → Bool) (n : Int) (ops : List (Op V F))
    (hb : countAdds ops < idLimit) :
    ∃ sf, run (New test n) ops = some sf ∧
      assignedIds (New test n) ops = List.range (countAdds ops) ∧
      (List.range (countAdds ops)).Pairwise (· < ·) ∧
      sf.i = countAdds ops ∧
      (∀ e ∈ sf.list, e.id < sf.i) ∧ SortedById sf.list ∧
      (∀ v, (Remove sf v).i = sf.i) ∧
      (∀ v, sf.i + 1 < idLimit →
        (Add sf v).i = sf.i + 1 ∧ (Add sf v).list = sf.list ++ [{ id := sf.i, val := v }]) := by
  have hb0 : (New test n).i + countAdds ops < idLimit := by rw [New_i]; omega
  obtain ⟨sf, hr, hinv, -, hi⟩ := run_spec ops (Inv_New test n) hb0
  refine ⟨sf, hr, ?_, List.pairwise_lt_range _, by rw [hi, New_i]; omega, hinv.ids_lt,
    hinv.sorted, fun v => (Remove_frame sf v).1, fun v hv => ⟨Add_i hv v, Add_list hinv v⟩⟩
  rw [assignedIds_spec ops (Inv_New test n) hb0, New_i, List.range_eq_range']

theorem C5_monotonic_ids_witness :
    countAdds ([.add 2, .remove 2, .add 3] : List (Op Nat Nat)) < idLimit ∧
    ∃ sf, run (New divides 10) [.add 2, .remove 2, .add 3] = some sf ∧
      assignedIds (New divides 10) [.add 2, .remove 2, .add 3]
        = List.range (countAdds ([.add 2, .remove 2, .add 3] : List (Op Nat Nat))) ∧
      (List.range (countAdds ([.add 2, .remove 2, .add 3] : List (Op Nat Nat)))).Pairwise
        (· < ·) ∧
      sf.i = countAdds ([.add 2, .remove 2, .add 3] : List (Op Nat Nat)) ∧
      (∀ e ∈ sf.list, e.id < sf.i) ∧ SortedById sf.list ∧
      (∀ v, (Remove sf v).i = sf.i) ∧
      (∀ v, sf.i + 1 < idLimit →
        (Add sf v).i = sf.i + 1 ∧ (Add sf v).list = sf.list ++ [{ id := sf.i, val := v }]) :=
  ⟨by decide, C5_monotonic_ids divides 10 [.add 2, .remove 2, .add 3] (by decide)⟩

end Resume

section Removal
variable {V F : Type} [DecidableEq V] [DecidableEq F]

/-! ## Remove -/

/-- C6: `Remove` is documented as removing a value from the set, and the claim says that
no element with the value remains after `Remove(v)`. The code does otherwise after a
value was added twice: in the state after `Add(2)`, `Add(2)`, the call `Remove(2)` leaves
the element of the first `Add` in the ordered index. `Len()` is 1, `Walk(0, ...)` visits
the value 2, `MatchAny(1)` returns it, the value has no locator entry and a second
`Remove(2)` changes nothing. -/
theorem C6_remove_failing_input :
    Reachable divides 10 stateTwice ∧
    (Remove stateTwice 2).list = [{ id := 0, val := 2 }] ∧
    Len (Remove stateTwice 2) = 1 ∧
    Walk (Remove stateTwice 2) 0 (always Nat) = some (1, [{ id := 0, val := 2 }]) ∧
    (MatchAny (Remove stateTwice 2) [1]).map Prod.snd = some [2] ∧
    mapGet (Remove stateTwice 2).idx 2 = none ∧
    (Remove (Remove stateTwice 2) 2).list = [{ id := 0, val := 2 }] :=
  ⟨reachable_stateTwice, by decide, by decide, by decide, by decide, by decide, by decide⟩

/-- What `Remove(v)` achieves from every reachable state: afterwards the value has no
locator entry and the element the locator named for it is not in the ordered index; and
when every element with the value `v` in the ordered index is the one the locator names
for `v`, no element with the value `v` remains, a walk from 0 that never stops visits
none, and `MatchAny` does not return `v` for any keys. -/
theorem Remove_located (test : V → F → Bool) (n : Int) (sf : SkipFilter V F)
    (h : Reachable test n sf) (v : V) :
    mapGet (Remove sf v).idx v = none ∧
    (∀ id, mapGet sf.idx v = some id → ∀ e ∈ (Remove sf v).list, e.id ≠ id) ∧
    ((∀ e ∈ sf.list, e.val = v → mapGet sf.idx v = some e.id) →
      (∀ e ∈ (Remove sf v).list, e.val ≠ v) ∧
      (∃ ret visited, Walk (Remove sf v) 0 (always V) = some (ret, visited) ∧
        ∀ e ∈ visited, e.val ≠ v) ∧
      (∀ ks, ∃ sf' vals, MatchAny (Remove sf v) ks = some (sf', vals) ∧ v ∉ vals)) := by
  obtain ⟨hinv, -⟩ := h.inv
  have hinv' := Inv_Remove hinv v
  refine ⟨?_, ?_, ?_⟩
  · cases hget : mapGet sf.idx v with
    | none => rw [Remove_of_none hget]; exact hget
    | some id =>
      rw [Remove_of_some hget]
      show mapGet (mapDelete sf.idx v) v = none
      rw [mapGet_mapDelete, if_pos rfl]
  · intro id hget e he
    rw [Remove_list hinv hget] at he
    simpa using (List.mem_filter.1 he).2
  · intro hv
    have hgone : ∀ e ∈ (Remove sf v).list, e.val ≠ v := by
      cases hget : mapGet sf.idx v with
      | none =>
        rw [Remove_of_none hget]
        intro e he hval
        rw [hv e he hval] at hget
        exact absurd hget (by simp)
      | some id =>
        rw [Remove_list hinv hget]
        intro e he hval
        obtain ⟨hel, hne⟩ := List.mem_filter.1 he
        have := hv e hel hval
        rw [hget] at this
        simp only [Option.some.injEq] at this
        simp [this] at hne
    refine ⟨hgone, ?_, ?_⟩
    · obtain ⟨ret, hw⟩ := Walk_always hinv' 0
      exact ⟨ret, _, hw, fun e he => hgone e (List.mem_of_mem_filter he)⟩
    · intro ks
      obtain ⟨sf', hm, -⟩ := MatchAny_spec hinv' ks
      refine ⟨sf', _, hm, ?_⟩
      intro hmem
      obtain ⟨e, he, hval⟩ := List.mem_map.1 hmem
      exact hgone e (List.mem_of_mem_filter he) hval

theorem filter_ne_of_split (pre post : List (entry V)) (x : entry V)
    (hs : SortedById (pre ++ x :: post)) :
    (pre ++ x :: post).filter (fun e => decide (e.id ≠ x.id)) = pre ++ post := by
  have hpw := List.pairwise_append.1 hs
  have hpost := List.pairwise_cons.1 hpw.2.1
  rw [List.filter_append, List.filter_cons_of_neg (by simp)]
  congr 1
  · apply List.filter_eq_self.2
    intro a ha
    have := hpw.2.2 a ha x (List.mem_cons_self _ _)
    simp only [ne_eq, decide_not, Bool.not_eq_true', decide_eq_false_iff_not]
    omega
  · apply List.filter_eq_self.2
    intro a ha
    have := hpost.1 a ha
    simp only [ne_eq, decide_not, Bool.not_eq_true', decide_eq_false_iff_not]
    omega

/-- C7: from every reachable state, `Remove(v)` of a value without a locator entry
leaves the whole state as it is; `Remove(v)` of a value whose locator entry is `id`
takes the one element with that id, which has the value `v`, out of the ordered index
and leaves the other elements in place, deletes the locator entry of `v` and no other,
and changes neither the allocator nor the cache of filters. -/
theorem C7_remove_frame (test : V → F → Bool) (n : Int) (sf : SkipFilter V F)
    (h : Reachable test n sf) (v : V) :
    (mapGet sf.idx v = none → Remove sf v = sf) ∧
    (∀ id, mapGet sf.idx v = some id →
      (∃ pre post, sf.list = pre ++ { id := id, val := v } :: post ∧
        (Remove sf v).list = pre ++ post ∧ ∀ e ∈ pre ++ post, e.id ≠ id) ∧
      (Remove sf v).idx = mapDelete sf.idx v ∧
      mapGet (Remove sf v).idx v = none ∧
      (∀ w, w ≠ v → mapGet (Remove sf v).idx w = mapGet sf.idx w) ∧
      (Remove sf v).i = sf.i ∧ (Remove sf v).cache = sf.cache ∧
      (Remove sf v).test = sf.test) := by
  obtain ⟨hinv, -⟩ := h.inv
  refine ⟨fun hnone => Remove_of_none hnone, ?_⟩
  intro id hget
  obtain ⟨pre, post, hsplit⟩ := List.append_of_mem (hinv.idx_live v id hget)
  have hl : (Remove sf v).list = pre ++ post := by
    rw [Remove_list hinv hget, hsplit]
    exact filter_ne_of_split pre post { id := id, val := v } (hsplit ▸ hinv.sorted)
  have hidx : (Remove sf v).idx = mapDelete sf.idx v := by rw [Remove_of_some hget]
  refine ⟨⟨pre, post, hsplit, hl, ?_⟩, hidx, ?_, ?_, (Remove_frame sf v).1,
    (Remove_frame sf v).2.1, (Remove_frame sf v).2.2⟩
  · intro e he
    rw [← hl, Remove_list hinv hget] at he
    simpa using (List.mem_filter.1 he).2
  · rw [hidx, mapGet_mapDelete, if_pos rfl]
  · intro w hw
    rw [hidx, mapGet_mapDelete, if_neg hw]

theorem C7_remove_frame_witness :
    Remove stateAdded 7 = stateAdded ∧
    ((∃ pre post, stateAdded.list = pre ++ { id := 1, val := 3 } :: post ∧
        (Remove stateAdded 3).list = pre ++ post ∧ ∀ e ∈ pre ++ post, e.id ≠ 1) ∧
      (Remove stateAdded 3).idx = mapDelete stateAdded.idx 3 ∧
      mapGet (Remove stateAdded 3).idx 3 = none ∧
      (∀ w, w ≠ 3 → mapGet (Remove stateAdded 3).idx w = mapGet stateAdded.idx w) ∧
      (Remove stateAdded 3).i = stateAdded.i ∧
      (Remove stateAdded 3).cache = stateAdded.cache ∧
      (Remove stateAdded 3).test = stateAdded.test) :=
  ⟨(C7_remove_frame divides 10 stateAdded reachable_stateAdded 7).1 (by decide),
   (C7_remove_frame divides 10 stateAdded reachable_stateAdded 3).2 1 (by decide)⟩

end Removal

section Counting
variable {V F : Type} [DecidableEq V] [DecidableEq F]

/-! ## Len -/

theorem SkipList.Insert_length (l : SkipList V) (e : entry V) :
    (SkipList.Insert l e).length = l.length + 1 := by
  induction l with
  | nil => rfl
  | cons x xs ih =>
    unfold SkipList.Insert
    split_ifs
    · rfl
    · simp [ih]

/-- C8: `Len()` is 0 after `New`; from every reachable state `Add` increases it by one,
`Remove` of a value with a locator entry decreases it by one, `Remove` of a value
without one, `MatchAny` and `Walk` leave it as it is; and it is the number of elements of
the ordered index, which is the number of elements a walk from 0 that never stops
visits. -/
theorem C8_len (test : V → F → Bool) (n : Int) (sf : SkipFilter V F)
    (h : Reachable test n sf) :
    Len (New test n) = 0 ∧
    (∀ v, Len (Add sf v) = Len sf + 1) ∧
    (∀ v id, mapGet sf.idx v = some id → Len (Remove sf v) + 1 = Len sf) ∧
    (∀ v, mapGet sf.idx v = none → Len (Remove sf v) = Len sf) ∧
    (∀ ks, ∃ sf' vals, MatchAny sf ks = some (sf', vals) ∧ Len sf' = Len sf) ∧
    (∀ start callback, step sf (.walk start callback) = some sf) ∧
    Len sf = sf.list.length ∧
    (∃ ret visited, Walk sf 0 (always V) = some (ret, visited) ∧ Len sf = visited.length) := by
  obtain ⟨hinv, -⟩ := h.inv
  refine ⟨rfl, fun v => SkipList.Insert_length sf.list _, ?_, ?_, ?_, ?_, rfl, ?_⟩
  · intro v id hget
    obtain ⟨pre, post, hsplit⟩ := List.append_of_mem (hinv.idx_live v id hget)
    have hl : (Remove sf v).list = pre ++ post := by
      rw [Remove_list hinv hget, hsplit]
      exact filter_ne_of_split pre post { id := id, val := v } (hsplit ▸ hinv.sorted)
    unfold Len SkipList.GetNodeCount
    rw [hl, hsplit]
    simp
    omega
  · intro v hnone
    rw [Remove_of_none hnone]
  · intro ks
    obtain ⟨sf', hm, -, hl, -⟩ := MatchAny_spec hinv ks
    exact ⟨sf', _, hm, by unfold Len; rw [hl]⟩
  · intro start callback
    simp [step, Walk_spec hinv]
  · obtain ⟨ret, hw⟩ := Walk_always hinv 0
    refine ⟨ret, _, hw, ?_⟩
    simp [Len, SkipList.GetNodeCount]

theorem C8_len_witness :
    Len (New divides 10) = 0 ∧
    (∀ v, Len (Add stateAdded v) = Len stateAdded + 1) ∧
    (∀ v id, mapGet stateAdded.idx v = some id → Len (Remove stateAdded v) + 1 = Len stateAdded) ∧
    (∀ v, mapGet stateAdded.idx v = none → Len (Remove stateAdded v) = Len stateAdded) ∧
    (∀ ks, ∃ sf' vals, MatchAny stateAdded ks = some (sf', vals) ∧ Len sf' = Len stateAdded) ∧
    (∀ start callback, step stateAdded (.walk start callback) = some stateAdded) ∧
    Len stateAdded = stateAdded.list.length ∧
    (∃ ret visited, Walk stateAdded 0 (always Nat) = some (ret, visited) ∧
      Len stateAdded = visited.length) :=
  C8_len divides 10 stateAdded reachable_stateAdded

/-! ## The filter builder -/

/-- C9: from every reachable state and for every key, `getFilter(k)` returns; the filter
it returns is the cache entry of `k` and its set holds the id of every element of the
ordered index that passes the test for `k`; every such id is below the allocator. -/
theorem C9_getFilter_complete (test : V → F → Bool) (n : Int) (sf : SkipFilter V F)
    (h : Reachable test n sf) (k : F) :
    ∃ sf' f, getFilter sf k = some (sf', f) ∧
      sf'.cache.GetIfPresent k = some f ∧ sf'.list = sf.list ∧
      (∀ e ∈ sf.list, test e.val k = true → e.id ∈ f.set) ∧
      (∀ e ∈ sf.list, e.id < sf.i) := by
  obtain ⟨hinv, ht⟩ := h.inv
  obtain ⟨-, hl, -, -, -, hget, hok, hfi, -⟩ := getFilterRef_spec hinv k
  refine ⟨_, _, getFilter_eq hinv k, hget, hl, ?_, hinv.ids_lt⟩
  intro e he htest
  exact hok.complete e he (by rw [hfi]; exact hinv.ids_lt e he) (by rw [ht]; exact htest)

theorem C9_getFilter_complete_witness :
    ∃ sf' f, getFilter stateRemoved 2 = some (sf', f) ∧
      sf'.cache.GetIfPresent 2 = some f ∧ sf'.list = stateRemoved.list ∧
      (∀ e ∈ stateRemoved.list, divides e.val 2 = true → e.id ∈ f.set) ∧
      (∀ e ∈ stateRemoved.list, e.id < stateRemoved.i) :=
  C9_getFilter_complete divides 10 stateRemoved reachable_stateRemoved 2

/-! ## Reconciliation -/

/-- C10: from every reachable state `MatchAny(ks...)` returns; after it the set of the
cache entry of every key of `ks` holds ids of elements of the ordered index only; a second
call with the same keys finds no stale id, returns the same values and leaves the state
as it is. -/
theorem C10_reconcile (test : V → F → Bool) (n : Int) (sf : SkipFilter V F)
    (h : Reachable test n sf) (ks : List F) :
    ∃ sf1 vals, MatchAny sf ks = some (sf1, vals) ∧
      (∀ k ∈ ks, ∃ f, sf1.cache.GetIfPresent k = some f ∧
        ∀ id ∈ f.set, ∃ e ∈ sf1.list, e.id = id) ∧
      staleIds sf1 ks = some [] ∧
      MatchAny sf1 ks = some (sf1, vals) := by
  obtain ⟨hinv, -⟩ := h.inv
  obtain ⟨sf1, hm, hinv1, hl, hi, -, ht, hclean⟩ := MatchAny_spec hinv ks
  have hclean1 : ∀ k ∈ ks, ∃ f, sf1.cache.GetIfPresent k = some f ∧ ¬ f.i < sf1.i ∧
      ∀ id ∈ f.set, ∃ e ∈ sf1.list, e.id = id := by
    intro k hk
    obtain ⟨f, hf, hfi, hlive⟩ := hclean k hk
    exact ⟨f, hf, by rw [hfi, hi]; exact Nat.lt_irrefl _, by rw [hl]; exact hlive⟩
  obtain ⟨hstale, hm2⟩ := MatchAny_clean hinv1 ks hclean1
  refine ⟨sf1, _, hm, fun k hk => ?_, hstale, ?_⟩
  · obtain ⟨f, hf, -, hlive⟩ := hclean1 k hk
    exact ⟨f, hf, hlive⟩
  · rw [hm2, hl, ht]

theorem C10_reconcile_witness :
    staleIds stateRemoved [2] = some [0] ∧
    ∃ sf1 vals, MatchAny stateRemoved [2] = some (sf1, vals) ∧
      (∀ k ∈ [2], ∃ f, sf1.cache.GetIfPresent k = some f ∧
        ∀ id ∈ f.set, ∃ e ∈ sf1.list, e.id = id) ∧
      staleIds sf1 [2] = some [] ∧
      MatchAny sf1 [2] = some (sf1, vals) :=
  ⟨by decide, C10_reconcile divides 10 stateRemoved reachable_stateRemoved [2]⟩

end Counting

section Locator
variable {V F : Type} [DecidableEq V] [DecidableEq F]

/-- One step keeps the ordered index and the locator unless it is `Add` or `Remove`. -/
theorem step_frame {sf sf1 : SkipFilter V F} (h : Inv sf) (op : Op V F)
    (hs : step sf op = some sf1) :
    (∃ v, op = .add v) ∨ (∃ v, op = .remove v) ∨ (sf1.list = sf.list ∧ sf1.idx = sf.idx) := by
  cases op with
  | add v => exact Or.inl ⟨v, rfl⟩
  | remove v => exact Or.inr (Or.inl ⟨v, rfl⟩)
  | matchAny ks =>
    obtain ⟨sf', hm, -, hl, -, hidx, -⟩ := MatchAny_spec h ks
    simp only [step, hm, Option.map_some', Option.some.injEq] at hs
    subst hs
    exact Or.inr (Or.inr ⟨hl, hidx⟩)
  | walk start callback =>
    simp only [step, Walk_spec h, Option.map_some', Option.some.injEq] at hs
    subst hs
    exact Or.inr (Or.inr ⟨rfl, rfl⟩)
  | getFilter k =>
    obtain ⟨-, hl, -, hidx, -⟩ := getFilterRef_spec h k
    simp only [step, getFilter_eq h, Option.map_some', Option.some.injEq] at hs
    subst hs
    exact Or.inr (Or.inr ⟨hl, hidx⟩)
  | evict k =>
    simp only [step, Option.some.injEq] at hs
    subst hs
    exact Or.inr (Or.inr ⟨rfl, rfl⟩)

/-- When no `Add` is given a value that is in the set, the locator names every element
of the ordered index: the condition under which `Remove(v)` leaves no element with the
value `v`. -/
theorem located_of_freshAdds (ops : List (Op V F)) :
    ∀ {sf sf' : SkipFilter V F}, Inv sf → sf.i + countAdds ops < idLimit →
    (∀ e ∈ sf.list, mapGet sf.idx e.val = some e.id) → freshAdds sf ops →
    run sf ops = some sf' → ∀ e ∈ sf'.list, mapGet sf'.idx e.val = some e.id := by
  induction ops with
  | nil =>
    intro sf sf' _ _ hloc _ hr
    simp only [run, Option.some.injEq] at hr
    subst hr
    exact hloc
  | cons op ops ih =>
    intro sf sf' h hb hloc hfresh hr
    have hc := countAdds_cons op ops
    rw [hc] at hb
    obtain ⟨sf1, hs, hinv, -, hi⟩ := step_spec h op (by omega)
    unfold run at hr
    unfold freshAdds at hfresh
    rw [hs] at hr hfresh
    refine ih hinv (by omega) ?_ hfresh.2 hr
    rcases step_frame h op hs with ⟨v, rfl⟩ | ⟨v, rfl⟩ | ⟨hl, hidx⟩
    · simp only [step, Option.some.injEq] at hs
      subst hs
      have hf : ∀ e ∈ sf.list, e.val ≠ v := hfresh.1
      rw [Add_list h]
      intro e he
      show mapGet (mapSet sf.idx v sf.i) e.val = some e.id
      rw [mapGet_mapSet]
      rcases List.mem_append.1 he with he | he
      · rw [if_neg (hf e he)]; exact hloc e he
      · rw [List.mem_singleton.1 he]; simp
    · simp only [step, Option.some.injEq] at hs
      subst hs
      cases hget : mapGet sf.idx v with
      | none => rw [Remove_of_none hget]; exact hloc
      | some id =>
        intro e he
        rw [Remove_list h hget] at he
        obtain ⟨hel, hne⟩ := List.mem_filter.1 he
        have hne' : e.id ≠ id := by simpa using hne
        have hval : e.val ≠ v := by
          intro hval
          have := hloc e hel
          rw [hval, hget] at this
          simp only [Option.some.injEq] at this
          exact hne' this.symm
        rw [Remove_of_some hget]
        show mapGet (mapDelete sf.idx v) e.val = some e.id
        rw [mapGet_mapDelete, if_neg hval]
        exact hloc e hel
    · rw [hl, hidx]; exact hloc

end Locator

section Eviction
variable {V F : Type} [DecidableEq V] [DecidableEq F]

/-! ## Eviction -/

theorem evictAll_spec (es : List F) :
    ∀ {sf : SkipFilter V F}, Inv sf →
    Inv (evictAll sf es) ∧ (evictAll sf es).list = sf.list ∧ (evictAll sf es).i = sf.i ∧
    (evictAll sf es).idx = sf.idx ∧ (evictAll sf es).test = sf.test ∧
    ∀ k, (evictAll sf es).cache.GetIfPresent k
      = if k ∈ es then none else sf.cache.GetIfPresent k := by
  induction es with
  | nil => intro sf h; exact ⟨h, rfl, rfl, rfl, rfl, fun k => by simp [evictAll]⟩
  | cons e es ih =>
    intro sf h
    obtain ⟨hinv, hl, hi, hidx, ht, hget⟩ := ih (Inv_evict h e)
    refine ⟨hinv, hl, hi, hidx, ht, ?_⟩
    intro k
    have : evictAll sf (e :: es) = evictAll { sf with cache := sf.cache.evict e } es := rfl
    rw [this, hget k]
    show (if k ∈ es then none else mapGet (mapDelete sf.cache.entries e) k) = _
    rw [mapGet_mapDelete]
    by_cases hk : k = e
    · subst hk; simp
    · by_cases hk' : k ∈ es
      · simp [hk']
      · simp [hk, hk', Cache.GetIfPresent]

/-- The filter `getFilter` returns for a key without a cache entry: the whole ordered
index is scanned into an empty set. -/
theorem getFilterRef_absent {sf : SkipFilter V F} (h : Inv sf) (k : F)
    (hnone : sf.cache.GetIfPresent k = none) :
    (getFilterRef sf k).2 = { i := sf.i, set := scanRef sf.test k sf.list [] } := by
  unfold getFilterRef
  simp only [hnone]
  split_ifs with hlt
  · have hall : sf.list.filter (fun e => decide (0 ≤ e.id)) = sf.list := by
      apply List.filter_eq_self.2
      intro a _
      simp
    simp only [hall]
  · have hi : sf.i = 0 := by simp only at hlt; omega
    have hnil : sf.list = [] := by
      apply List.eq_nil_iff_forall_not_mem.2
      intro e he
      have := h.ids_lt e he
      omega
    rw [hi, hnil]
    rfl

/-- C11: from every reachable state, dropping any entries from the filter cache does not
change what `MatchAny` returns, for one key and for any keys; a dropped key has no entry,
and `getFilter` builds its filter again from the high-water mark 0, by scanning the whole
ordered index into an empty set. -/
theorem C11_rebuild_after_eviction (test : V → F → Bool) (n : Int) (sf : SkipFilter V F)
    (h : Reachable test n sf) (evicted ks : List F) (k : F) :
    (∃ s1 s2 vals, MatchAny sf [k] = some (s1, vals) ∧
      MatchAny (evictAll sf evicted) [k] = some (s2, vals)) ∧
    (∃ s1 s2 vals, MatchAny sf ks = some (s1, vals) ∧
      MatchAny (evictAll sf evicted) ks = some (s2, vals)) ∧
    (k ∈ evicted → (evictAll sf evicted).cache.GetIfPresent k = none ∧
      ∃ sf', getFilter (evictAll sf evicted) k
        = some (sf', { i := sf.i, set := scanRef test k sf.list [] })) := by
  obtain ⟨hinv, ht⟩ := h.inv
  obtain ⟨hinv', hl, hi, -, ht', hget⟩ := evictAll_spec evicted hinv
  have hsame : ∀ ks, ∃ s1 s2 vals, MatchAny sf ks = some (s1, vals) ∧
      MatchAny (evictAll sf evicted) ks = some (s2, vals) := by
    intro ks
    obtain ⟨s1, hm1, -⟩ := MatchAny_spec hinv ks
    obtain ⟨s2, hm2, -⟩ := MatchAny_spec hinv' ks
    rw [hl, ht'] at hm2
    exact ⟨s1, s2, _, hm1, hm2⟩
  refine ⟨hsame [k], hsame ks, ?_⟩
  intro hk
  have hnone : (evictAll sf evicted).cache.GetIfPresent k = none := by
    rw [hget k, if_pos hk]
  refine ⟨hnone, (getFilterRef (evictAll sf evicted) k).1, ?_⟩
  rw [getFilter_eq hinv' k]
  have := getFilterRef_absent hinv' k hnone
  rw [hl, hi, ht', ht] at this
  rw [← this]

theorem C11_rebuild_after_eviction_witness :
    (∃ s1 s2 vals, MatchAny stateRemoved [2] = some (s1, vals) ∧
      MatchAny (evictAll stateRemoved [2]) [2] = some (s2, vals)) ∧
    (∃ s1 s2 vals, MatchAny stateRemoved [2, 3] = some (s1, vals) ∧
      MatchAny (evictAll stateRemoved [2]) [2, 3] = some (s2, vals)) ∧
    ((evictAll stateRemoved [2]).cache.GetIfPresent 2 = none ∧
      ∃ sf', getFilter (evictAll stateRemoved [2]) 2
        = some (sf', { i := stateRemoved.i, set := scanRef divides 2 stateRemoved.list [] })) :=
  ⟨(C11_rebuild_after_eviction divides 10 stateRemoved reachable_stateRemoved [2] [2, 3] 2).1,
   (C11_rebuild_after_eviction divides 10 stateRemoved reachable_stateRemoved [2] [2, 3] 2).2.1,
   (C11_rebuild_after_eviction divides 10 stateRemoved reachable_stateRemoved [2] [2, 3] 2).2.2
     (by decide)⟩

/-! ## Walk to the end -/

/-- The loop of `Walk` with a callback that accepts every element it is offered visits
all the elements and returns the id of the last one plus 1. -/
theorem walkRef_true (callback : List V → V → Bool) :
    ∀ (suf : List (entry V)) (prev : Nat) (visited : List (entry V)),
    (∀ pre x post, suf = pre ++ x :: post →
      callback ((visited ++ pre).map entry.val) x.val = true) →
    walkRef callback suf prev visited
      = (((match suf.getLast? with
            | some e => e.id
            | none => prev) + 1) % uint64Size, visited ++ suf) := by
  intro suf
  induction suf with
  | nil => intro prev visited _; simp [walkRef]
  | cons e rest ih =>
    intro prev visited hcb
    have h0 : callback (visited.map entry.val) e.val = true := by
      have := hcb [] e rest rfl
      simpa using this
    unfold walkRef
    rw [if_pos h0, ih e.id (visited ++ [e])]
    · cases rest with
      | nil => simp
      | cons r rs =>
        have hx : (r :: rs).getLast? = some ((r :: rs).getLast (by simp)) :=
          List.getLast?_eq_getLast _ _
        simp [List.getLast?_cons_cons, hx]
    · intro pre x post hsplit
      have := hcb (e :: pre) x post (by rw [hsplit]; rfl)
      simpa using this

/-- C12: from every reachable state and for every start, when the visitor accepts every
element it is offered, `Walk` returns, has visited the elements of the ordered index with
an id of at least `start`, and returns the id of the last element visited plus 1. -/
theorem C12_walk_exhaust (test : V → F → Bool) (n : Int) (sf : SkipFilter V F)
    (h : Reachable test n sf) (start : Nat) (callback : List V → V → Bool)
    (hcb : ∀ pre x post, sf.list.filter (fun e => decide (start ≤ e.id)) = pre ++ x :: post →
      callback (pre.map entry.val) x.val = true) :
    ∃ ret, Walk sf start callback
        = some (ret, sf.list.filter (fun e => decide (start ≤ e.id))) ∧
      ∀ last, (sf.list.filter (fun e => decide (start ≤ e.id))).getLast? = some last →
        ret = last.id + 1 := by
  obtain ⟨hinv, -⟩ := h.inv
  have hw := Walk_spec hinv start callback
  cases hf : sf.list.filter (fun e => decide (start ≤ e.id)) with
  | nil =>
    rw [hf] at hw
    exact ⟨start, hw, fun last hl => by simp at hl⟩
  | cons e rest =>
    rw [hf] at hcb hw
    have := walkRef_true callback (e :: rest) 0 [] (by simpa using hcb)
    simp only [List.nil_append] at this
    simp only [this] at hw
    refine ⟨_, hw, ?_⟩
    intro last hl
    rw [hl]
    have hmem : last ∈ sf.list := by
      have h1 : last ∈ e :: rest := List.mem_of_getLast?_eq_some hl
      rw [← hf] at h1
      exact List.mem_of_mem_filter h1
    have h1 := hinv.ids_lt last hmem
    have h2 := hinv.bound
    show (last.id + 1) % uint64Size = last.id + 1
    apply Nat.mod_eq_of_lt
    unfold idLimit at h2
    unfold uint64Size
    omega

theorem C12_walk_exhaust_witness :
    ∃ ret, Walk stateAdded 1 (always Nat)
        = some (ret, stateAdded.list.filter (fun e => decide (1 ≤ e.id))) ∧
      ∀ last, (stateAdded.list.filter (fun e => decide (1 ≤ e.id))).getLast? = some last →
        ret = last.id + 1 :=
  C12_walk_exhaust divides 10 stateAdded reachable_stateAdded 1 (always Nat)
    (fun _ _ _ _ => rfl)

end Eviction

section Orphans
variable {V F : Type} [DecidableEq V] [DecidableEq F]

/-! ## Orphans -/

/-- An element that no locator entry names stays in the ordered index whatever steps
follow. -/
theorem orphan_persists (e : entry V) (ops : List (Op V F)) :
    ∀ {sf sf' : SkipFilter V F}, Inv sf → sf.i + countAdds ops < idLimit →
    e ∈ sf.list → (∀ w id, mapGet sf.idx w = some id → id ≠ e.id) →
    run sf ops = some sf' → e ∈ sf'.list := by
  induction ops with
  | nil =>
    intro sf sf' _ _ he _ hr
    simp only [run, Option.some.injEq] at hr
    subst hr
    exact he
  | cons op ops ih =>
    intro sf sf' h hb he hno hr
    have hc := countAdds_cons op ops
    rw [hc] at hb
    obtain ⟨sf1, hs, hinv, -, hi⟩ := step_spec h op (by omega)
    unfold run at hr
    rw [hs] at hr
    have key : e ∈ sf1.list ∧ ∀ w id, mapGet sf1.idx w = some id → id ≠ e.id := by
      rcases step_frame h op hs with ⟨v, rfl⟩ | ⟨v, rfl⟩ | ⟨hl, hidx⟩
      · simp only [step, Option.some.injEq] at hs
        subst hs
        refine ⟨by rw [Add_list h]; exact List.mem_append_left _ he, ?_⟩
        intro w id hw
        have hw' : mapGet (mapSet sf.idx v sf.i) w = some id := hw
        rw [mapGet_mapSet] at hw'
        split_ifs at hw' with hwv
        · simp only [Option.some.injEq] at hw'
          have := h.ids_lt e he
          omega
        · exact hno w id hw'
      · simp only [step, Option.some.injEq] at hs
        subst hs
        cases hget : mapGet sf.idx v with
        | none => rw [Remove_of_none hget]; exact ⟨he, hno⟩
        | some id =>
          refine ⟨?_, ?_⟩
          · rw [Remove_list h hget]
            refine List.mem_filter.2 ⟨he, ?_⟩
            have := hno v id hget
            simpa using fun h' => this h'.symm
          · intro w id' hw
            rw [Remove_of_some hget] at hw
            have hw' : mapGet (mapDelete sf.idx v) w = some id' := hw
            rw [mapGet_mapDelete] at hw'
            split_ifs at hw' with hwv
            exact hno w id' hw'
      · rw [hl, hidx]; exact ⟨he, hno⟩
    exact ih hinv (by omega) key.1 key.2 hr

/-- C13: from every reachable state with room for two more identifiers, after `Add(v)`,
`Add(v)`, `Remove(v)` the ordered index is the one before the three calls with the
element of the first `Add` at its end: `Len` is one more, a walk visits it and `MatchAny`
returns `v` for every key `v` passes; `v` has no locator entry, so `Remove(v)` does
nothing; and the element stays in the ordered index whatever steps follow. -/
theorem C13_duplicate_add_orphan (test : V → F → Bool) (n : Int) (sf : SkipFilter V F)
    (h : Reachable test n sf) (v : V) (hb : sf.i + 2 < idLimit) :
    (Remove (Add (Add sf v) v) v).list = sf.list ++ [{ id := sf.i, val := v }] ∧
    Len (Remove (Add (Add sf v) v) v) = Len sf + 1 ∧
    (∃ ret, Walk (Remove (Add (Add sf v) v) v) 0 (always V)
      = some (ret, sf.list ++ [{ id := sf.i, val := v }])) ∧
    (∀ k, test v k = true →
      ∃ sf' vals, MatchAny (Remove (Add (Add sf v) v) v) [k] = some (sf', vals) ∧ v ∈ vals) ∧
    mapGet (Remove (Add (Add sf v) v) v).idx v = none ∧
    Remove (Remove (Add (Add sf v) v) v) v = Remove (Add (Add sf v) v) v ∧
    (∀ (ops : List (Op V F)) (sf' : SkipFilter V F),
      (Remove (Add (Add sf v) v) v).i + countAdds ops < idLimit →
      run (Remove (Add (Add sf v) v) v) ops = some sf' →
      ({ id := sf.i, val := v } : entry V) ∈ sf'.list) := by
  obtain ⟨hinv, ht⟩ := h.inv
  have hb1 : sf.i + 1 < idLimit := by omega
  have hinv1 := Inv_Add hinv hb1 v
  have hi1 : (Add sf v).i = sf.i + 1 := Add_i hb1 v
  have hl1 := Add_list hinv v
  have hb2 : (Add sf v).i + 1 < idLimit := by rw [hi1]; omega
  have hinv2 := Inv_Add hinv1 hb2 v
  have hi2 : (Add (Add sf v) v).i = sf.i + 2 := by rw [Add_i hb2 v, hi1]
  have hl2 := Add_list hinv1 v
  have hget2 : mapGet (Add (Add sf v) v).idx v = some (sf.i + 1) := by
    show mapGet (mapSet (Add sf v).idx v (Add sf v).i) v = _
    rw [mapGet_mapSet_self, hi1]
  have hinv3 := Inv_Remove hinv2 v
  have hl3 : (Remove (Add (Add sf v) v) v).list = sf.list ++ [{ id := sf.i, val := v }] := by
    rw [Remove_list hinv2 hget2, hl2, hl1, hi1]
    have := filter_ne_of_split (sf.list ++ [{ id := sf.i, val := v }]) []
      ({ id := sf.i + 1, val := v } : entry V) (by
        have hs := hinv2.sorted
        rw [hl2, hl1, hi1] at hs
        exact hs)
    simpa using this
  have hidx3 : mapGet (Remove (Add (Add sf v) v) v).idx v = none := by
    rw [Remove_of_some hget2]
    show mapGet (mapDelete _ v) v = none
    rw [mapGet_mapDelete, if_pos rfl]
  have hi3 : (Remove (Add (Add sf v) v) v).i = sf.i + 2 := by
    rw [(Remove_frame _ v).1, hi2]
  have ht3 : (Remove (Add (Add sf v) v) v).test = test := by
    rw [(Remove_frame _ v).2.2]; exact ht
  have hmem : ({ id := sf.i, val := v } : entry V) ∈ (Remove (Add (Add sf v) v) v).list := by
    rw [hl3]; simp
  refine ⟨hl3, ?_, ?_, ?_, hidx3, Remove_of_none hidx3, ?_⟩
  · unfold Len SkipList.GetNodeCount
    rw [hl3]; simp
  · obtain ⟨ret, hw⟩ := Walk_always hinv3 0
    refine ⟨ret, ?_⟩
    rw [hw, hl3]
    simp
  · intro k hk
    obtain ⟨sf', hm, -⟩ := MatchAny_spec hinv3 [k]
    refine ⟨sf', _, hm, ?_⟩
    refine List.mem_map.2 ⟨{ id := sf.i, val := v }, List.mem_filter.2 ⟨hmem, ?_⟩, rfl⟩
    rw [ht3]
    simpa using hk
  · intro ops sf' hbound hr
    refine orphan_persists _ ops hinv3 hbound hmem ?_ hr
    intro w id hw hid
    have hlive := hinv3.idx_live w id hw
    have heq := hinv3.sorted.eq_of_id_eq hlive hmem hid
    have hwv : w = v := congrArg entry.val heq
    rw [hwv, hidx3] at hw
    exact absurd hw (by simp)

theorem C13_duplicate_add_orphan_witness :
    stateAdded.i + 2 < idLimit ∧
    ((Remove (Add (Add stateAdded 9) 9) 9).list = stateAdded.list ++ [{ id := stateAdded.i, val := 9 }] ∧
    Len (Remove (Add (Add stateAdded 9) 9) 9) = Len stateAdded + 1 ∧
    (∃ ret, Walk (Remove (Add (Add stateAdded 9) 9) 9) 0 (always Nat)
      = some (ret, stateAdded.list ++ [{ id := stateAdded.i, val := 9 }])) ∧
    (∀ k, divides 9 k = true →
      ∃ sf' vals, MatchAny (Remove (Add (Add stateAdded 9) 9) 9) [k] = some (sf', vals) ∧
        9 ∈ vals) ∧
    mapGet (Remove (Add (Add stateAdded 9) 9) 9).idx 9 = none ∧
    Remove (Remove (Add (Add stateAdded 9) 9) 9) 9 = Remove (Add (Add stateAdded 9) 9) 9 ∧
    (∀ (ops : List (Op Nat Nat)) (sf' : SkipFilter Nat Nat),
      (Remove (Add (Add stateAdded 9) 9) 9).i + countAdds ops < idLimit →
      run (Remove (Add (Add stateAdded 9) 9) 9) ops = some sf' →
      ({ id := stateAdded.i, val := 9 } : entry Nat) ∈ sf'.list)) :=
  ⟨by decide, C13_duplicate_add_orphan divides 10 stateAdded reachable_stateAdded 9 (by decide)⟩

end Orphans

section CacheSteps
variable {V F : Type} [DecidableEq V] [DecidableEq F]

/-! ## How the steps change the cache -/

/-- The fast path of `getFilter`, in any state: an entry whose high-water mark is not
below the allocator is returned as it is, and the state does not change. -/
theorem getFilter_current (sf : SkipFilter V F) (k : F) (f : filter)
    (hget : sf.cache.GetIfPresent k = some f) (hi : ¬ f.i < sf.i) :
    getFilter sf k = some (sf, f) := by
  unfold getFilter
  simp only [hget, hi, if_false]

theorem getFilterRef_origin (sf : SkipFilter V F) (k : F) :
    Origin sf k (getFilterRef sf k).2 := by
  unfold getFilterRef Origin
  cases hget : sf.cache.GetIfPresent k with
  | some f0 =>
    simp only
    split_ifs with hlt
    · intro id hid
      rcases (mem_scanRef _ _ _ _ _).1 hid with hid | ⟨e, he, heid, ht⟩
      · exact Or.inl ⟨f0, rfl, hid⟩
      · exact Or.inr ⟨e, List.mem_of_mem_filter he, heid, ht⟩
    · intro id hid
      exact Or.inl ⟨f0, rfl, hid⟩
  | none =>
    simp only
    split_ifs with hlt
    · intro id hid
      rcases (mem_scanRef _ _ _ _ _).1 hid with hid | ⟨e, he, heid, ht⟩
      · simp at hid
      · exact Or.inr ⟨e, List.mem_of_mem_filter he, heid, ht⟩
    · intro id hid
      simp at hid

/-- The cache after the first loop of `MatchAny`: the entry of a key that is not among
the keys is the one it was, and the entry of a key among them has the allocator as its
high-water mark and ids of the origin stated. -/
theorem getFilters_cache (ks : List F) :
    ∀ {sf sf1 : SkipFilter V F} {fs : List filter}, Inv sf →
    getFilters sf ks = some (sf1, fs) →
    ∀ k f1, sf1.cache.GetIfPresent k = some f1 →
      (k ∉ ks ∧ sf.cache.GetIfPresent k = some f1) ∨
      (k ∈ ks ∧ f1.i = sf.i ∧ Origin sf k f1) := by
  induction ks with
  | nil =>
    intro sf sf1 fs _ hg k f1 hf1
    simp only [getFilters, Option.some.injEq, Prod.mk.injEq] at hg
    rw [← hg.1] at hf1
    exact Or.inl ⟨by simp, hf1⟩
  | cons k0 ks ih =>
    intro sf sf1 fs h hg k f1 hf1
    have hspec := getFilterRef_spec h k0
    have horig := getFilterRef_origin sf k0
    have heq := getFilter_eq h k0
    rcases hr : getFilterRef sf k0 with ⟨sfa, fa⟩
    rw [hr] at hspec heq horig
    obtain ⟨hinv, hl, hi, -, ht, hget, -, hfi, hother⟩ := hspec
    simp only at hinv hl hi ht hget hfi hother horig
    unfold getFilters at hg
    rw [heq] at hg
    simp only at hg
    cases hrest : getFilters sfa ks with
    | none => rw [hrest] at hg; simp at hg
    | some r =>
      obtain ⟨sf2, fs2⟩ := r
      rw [hrest] at hg
      simp only [Option.some.injEq, Prod.mk.injEq] at hg
      rw [← hg.1] at hf1
      have transfer : ∀ f, sfa.cache.GetIfPresent k = some f →
          (k = k0 ∧ f = fa) ∨ (k ≠ k0 ∧ sf.cache.GetIfPresent k = some f) := by
        intro f hf
        by_cases hk : k = k0
        · subst hk
          rw [hget] at hf
          simp only [Option.some.injEq] at hf
          exact Or.inl ⟨rfl, hf.symm⟩
        · rw [hother k hk] at hf
          exact Or.inr ⟨hk, hf⟩
      rcases ih hinv hrest k f1 hf1 with ⟨hk, hold⟩ | ⟨hk, hi1, horig1⟩
      · rcases transfer f1 hold with ⟨rfl, rfl⟩ | ⟨hk0, hold'⟩
        · exact Or.inr ⟨List.mem_cons_self _ _, hfi, horig⟩
        · exact Or.inl ⟨by simp [hk, hk0], hold'⟩
      · refine Or.inr ⟨List.mem_cons_of_mem _ hk, hi1.trans hi, ?_⟩
        intro id hid
        rcases horig1 id hid with ⟨f, hf, hidf⟩ | ⟨e, he, heid, hte⟩
        · rcases transfer f hf with ⟨rfl, rfl⟩ | ⟨-, hold'⟩
          · exact horig id hidf
          · exact Or.inl ⟨f, hold', hidf⟩
        · exact Or.inr ⟨e, hl ▸ he, heid, ht ▸ hte⟩

/-- The cache after `MatchAny`. -/
theorem MatchAny_cache {sf sf' : SkipFilter V F} {vals : List V} (h : Inv sf) (ks : List F)
    (hm : MatchAny sf ks = some (sf', vals)) :
    ∀ k f1, sf'.cache.GetIfPresent k = some f1 →
      (k ∉ ks ∧ sf.cache.GetIfPresent k = some f1) ∨
      (k ∈ ks ∧ f1.i = sf.i ∧ Origin sf k f1) := by
  obtain ⟨sf1, fs, hfs, -⟩ := getFilters_spec h ks
  have hcache := getFilters_cache ks h hfs
  unfold MatchAny at hm
  rw [hfs] at hm
  simp only [getValues_eq] at hm
  intro k f1 hf1
  split_ifs at hm with hpos
  · simp only [Option.some.injEq, Prod.mk.injEq] at hm
    rw [← hm.1] at hf1
    have hf1' : (cleanup sf1.cache ks _).GetIfPresent k = some f1 := hf1
    rw [cleanup_get] at hf1'
    cases hold : sf1.cache.GetIfPresent k with
    | none => rw [hold] at hf1'; simp at hf1'
    | some f =>
      rw [hold] at hf1'
      simp only [Option.map_some', Option.some.injEq] at hf1'
      rcases hcache k f hold with ⟨hk, hsf⟩ | ⟨hk, hi, horig⟩
      · rw [if_neg hk] at hf1'
        exact Or.inl ⟨hk, hf1' ▸ hsf⟩
      · rw [if_pos hk] at hf1'
        refine Or.inr ⟨hk, by rw [← hf1']; exact hi, ?_⟩
        intro id hid
        rw [← hf1'] at hid
        exact horig id ((Bitmap.mem_removeAll _ _ _).1 hid).1
  · simp only [Option.some.injEq, Prod.mk.injEq] at hm
    rw [← hm.1] at hf1
    exact hcache k f1 hf1

/-- The entry a key has after a step is the entry it had, with the same high-water mark
and no new id, or a filter with the allocator as its high-water mark whose ids come from
the entry the key had or from elements of the ordered index that pass the test. -/
theorem step_cache {sf sf1 : SkipFilter V F} (h : Inv sf) (op : Op V F)
    (hs : step sf op = some sf1) :
    ∀ k f1, sf1.cache.GetIfPresent k = some f1 →
      (∃ f, sf.cache.GetIfPresent k = some f ∧ f.i = f1.i ∧ ∀ id ∈ f1.set, id ∈ f.set) ∨
      (f1.i = sf.i ∧ Origin sf k f1) := by
  intro k f1 hf1
  cases op with
  | add v =>
    simp only [step, Option.some.injEq] at hs
    subst hs
    exact Or.inl ⟨f1, hf1, rfl, fun _ hid => hid⟩
  | remove v =>
    simp only [step, Option.some.injEq] at hs
    subst hs
    rw [(Remove_frame sf v).2.1] at hf1
    exact Or.inl ⟨f1, hf1, rfl, fun _ hid => hid⟩
  | matchAny ks =>
    cases hm : MatchAny sf ks with
    | none => simp [step, hm] at hs
    | some r =>
      obtain ⟨sf', vals⟩ := r
      simp only [step, hm, Option.map_some', Option.some.injEq] at hs
      subst hs
      rcases MatchAny_cache h ks hm k f1 hf1 with ⟨-, hold⟩ | ⟨-, hi, horig⟩
      · exact Or.inl ⟨f1, hold, rfl, fun _ hid => hid⟩
      · exact Or.inr ⟨hi, horig⟩
  | walk start callback =>
    simp only [step, Walk_spec h, Option.map_some', Option.some.injEq] at hs
    subst hs
    exact Or.inl ⟨f1, hf1, rfl, fun _ hid => hid⟩
  | getFilter k0 =>
    simp only [step, getFilter_eq h, Option.map_some', Option.some.injEq] at hs
    subst hs
    obtain ⟨-, -, -, -, -, hget, -, hfi, hother⟩ := getFilterRef_spec h k0
    by_cases hk : k = k0
    · subst hk
      rw [hget] at hf1
      simp only [Option.some.injEq] at hf1
      rw [← hf1]
      exact Or.inr ⟨hfi, getFilterRef_origin sf k⟩
    · rw [hother k hk] at hf1
      exact Or.inl ⟨f1, hf1, rfl, fun _ hid => hid⟩
  | evict k0 =>
    simp only [step, Option.some.injEq] at hs
    subst hs
    have hf1' : mapGet (mapDelete sf.cache.entries k0) k = some f1 := hf1
    rw [mapGet_mapDelete] at hf1'
    split_ifs at hf1' with hk
    exact Or.inl ⟨f1, hf1', rfl, fun _ hid => hid⟩

end CacheSteps

section HighWaterMark
variable {V F : Type} [DecidableEq V] [DecidableEq F]

/-! ## The fast path and the high-water mark -/

/-- C14: from every reachable state and for every key whose cache entry has a high-water
mark of at least the allocator, `getFilter(k)` returns that entry and leaves the whole
state, the entry included, as it is; the outcome is the same whatever the test is, so
the test is applied to no element; and for every key a second `getFilter` right after a
first one returns the same entry and changes nothing. -/
theorem C14_fast_path (test : V → F → Bool) (n : Int) (sf : SkipFilter V F)
    (h : Reachable test n sf) (k : F) (f : filter)
    (hget : sf.cache.GetIfPresent k = some f) (hge : sf.i ≤ f.i) :
    getFilter sf k = some (sf, f) ∧
    (∀ other : V → F → Bool,
      getFilter { sf with test := other } k = some ({ sf with test := other }, f)) ∧
    (∀ k', ∃ s1 f1, getFilter sf k' = some (s1, f1) ∧ getFilter s1 k' = some (s1, f1)) := by
  obtain ⟨hinv, -⟩ := h.inv
  refine ⟨getFilter_current sf k f hget (by omega), ?_, ?_⟩
  · intro other
    exact getFilter_current { sf with test := other } k f hget (by show ¬ f.i < sf.i; omega)
  · intro k'
    obtain ⟨-, -, hi, -, -, hget', -, hfi, -⟩ := getFilterRef_spec hinv k'
    have hcur : ¬ (getFilterRef sf k').2.i < (getFilterRef sf k').1.i := by
      rw [hfi, hi]
      exact Nat.lt_irrefl _
    exact ⟨(getFilterRef sf k').1, (getFilterRef sf k').2, getFilter_eq hinv k',
      getFilter_current (getFilterRef sf k').1 k' (getFilterRef sf k').2 hget' hcur⟩

theorem C14_fast_path_witness :
    stateRemoved.cache.GetIfPresent 2 = some { i := 3, set := [0, 2] } ∧
    stateRemoved.i ≤ ({ i := 3, set := [0, 2] } : filter).i ∧
    (getFilter stateRemoved 2 = some (stateRemoved, { i := 3, set := [0, 2] }) ∧
    (∀ other : Nat → Nat → Bool,
      getFilter { stateRemoved with test := other } 2
        = some ({ stateRemoved with test := other }, { i := 3, set := [0, 2] })) ∧
    (∀ k', ∃ s1 f1, getFilter stateRemoved k' = some (s1, f1) ∧
      getFilter s1 k' = some (s1, f1))) :=
  ⟨by decide, by decide,
   C14_fast_path divides 10 stateRemoved reachable_stateRemoved 2 { i := 3, set := [0, 2] }
     (by decide) (by decide)⟩

/-- Over a sequence of steps the high-water mark of the entry of a key does not go below
the one it had, nor, when the entry is a new one, below the allocator of the start. -/
theorem hwm_mono (ops : List (Op V F)) :
    ∀ {sf sf' : SkipFilter V F}, Inv sf → sf.i + countAdds ops < idLimit →
    run sf ops = some sf' →
    ∀ k f', sf'.cache.GetIfPresent k = some f' →
      (∃ f, sf.cache.GetIfPresent k = some f ∧ f.i ≤ f'.i) ∨ sf.i ≤ f'.i := by
  induction ops with
  | nil =>
    intro sf sf' _ _ hr k f' hf'
    simp only [run, Option.some.injEq] at hr
    subst hr
    exact Or.inl ⟨f', hf', le_refl _⟩
  | cons op ops ih =>
    intro sf sf' h hb hr k f' hf'
    have hc := countAdds_cons op ops
    rw [hc] at hb
    obtain ⟨sf1, hs, hinv, -, hi⟩ := step_spec h op (by omega)
    unfold run at hr
    rw [hs] at hr
    rcases ih hinv (by omega) hr k f' hf' with ⟨f1, hf1, hle⟩ | hle
    · rcases step_cache h op hs k f1 hf1 with ⟨f, hf, hfi, -⟩ | ⟨hfi, -⟩
      · exact Or.inl ⟨f, hf, by omega⟩
      · exact Or.inr (by omega)
    · exact Or.inr (by omega)

/-- C15: from every reachable state, `getFilter(k)` returns an entry whose high-water
mark is the allocator; the high-water mark of a cached entry is at most the allocator;
over every sequence of steps the high-water mark of the entry of a key does not
decrease; and for a key without an entry `getFilter` does what it does when the key has
an entry with the high-water mark 0 and an empty set, the entry it creates. -/
theorem C15_high_water_mark (test : V → F → Bool) (n : Int) (sf : SkipFilter V F)
    (h : Reachable test n sf) (k : F) :
    (∃ s1 f, getFilter sf k = some (s1, f) ∧ s1.cache.GetIfPresent k = some f ∧
      f.i = s1.i) ∧
    (∀ f, sf.cache.GetIfPresent k = some f → f.i ≤ sf.i) ∧
    (∀ (ops : List (Op V F)) (sf' : SkipFilter V F), sf.i + countAdds ops < idLimit →
      run sf ops = some sf' →
      ∀ f f', sf.cache.GetIfPresent k = some f → sf'.cache.GetIfPresent k = some f' →
        f.i ≤ f'.i) ∧
    (sf.cache.GetIfPresent k = none →
      getFilter sf k
        = getFilter { sf with cache := sf.cache.Set k { i := 0, set := [] } } k) := by
  obtain ⟨hinv, -⟩ := h.inv
  have hle : ∀ f, sf.cache.GetIfPresent k = some f → f.i ≤ sf.i :=
    fun f hf => (hinv.cache_ok k f (mapGet_mem _ _ _ hf)).le
  refine ⟨?_, hle, ?_, ?_⟩
  · obtain ⟨-, -, hi, -, -, hget, -, hfi, -⟩ := getFilterRef_spec hinv k
    exact ⟨(getFilterRef sf k).1, (getFilterRef sf k).2, getFilter_eq hinv k, hget,
      hfi.trans hi.symm⟩
  · intro ops sf' hb hr f f' hf hf'
    rcases hwm_mono ops hinv hb hr k f' hf' with ⟨f0, hf0, h0⟩ | h0
    · rw [hf] at hf0
      simp only [Option.some.injEq] at hf0
      rw [hf0]; exact h0
    · exact le_trans (hle f hf) h0
  · intro hnone
    have hset : ({ sf with cache := sf.cache.Set k { i := 0, set := [] } } :
        SkipFilter V F).cache.GetIfPresent k = some { i := 0, set := [] } :=
      mapGet_mapSet_self _ _ _
    unfold getFilter
    simp only [hnone, hset]

theorem C15_high_water_mark_witness :
    (∃ s1 f, getFilter stateRemoved 2 = some (s1, f) ∧ s1.cache.GetIfPresent 2 = some f ∧
      f.i = s1.i) ∧
    (∀ f, stateRemoved.cache.GetIfPresent 2 = some f → f.i ≤ stateRemoved.i) ∧
    (∀ (ops : List (Op Nat Nat)) (sf' : SkipFilter Nat Nat),
      stateRemoved.i + countAdds ops < idLimit →
      run stateRemoved ops = some sf' →
      ∀ f f', stateRemoved.cache.GetIfPresent 2 = some f →
        sf'.cache.GetIfPresent 2 = some f' → f.i ≤ f'.i) ∧
    (stateRemoved.cache.GetIfPresent 2 = none →
      getFilter stateRemoved 2
        = getFilter { stateRemoved with
            cache := stateRemoved.cache.Set 2 { i := 0, set := [] } } 2) :=
  C15_high_water_mark divides 10 stateRemoved reachable_stateRemoved 2

end HighWaterMark

section Termination
variable {V F : Type} [DecidableEq V] [DecidableEq F]

/-! ## Termination of the traversals -/

theorem reachable_stateSingle : Reachable divides 10 stateSingle :=
  ⟨[.add 5], by decide, rfl⟩

theorem walkLoop_zero (callback : List V → V → Bool) (l : SkipList V) (el : Option Nat)
    (first : Bool) (prev id : Nat) (visited : List (entry V)) :
    walkLoop callback l 0 el first prev id visited = none := by
  unfold walkLoop; rfl

theorem scanLoop_zero (test : V → F → Bool) (k : F) (l : SkipList V) (el : Option Nat)
    (first : Bool) (prev : Nat) (set : Bitmap) :
    scanLoop test k l 0 el first prev set = none := by
  unfold scanLoop; rfl

/-- The loop of `Walk` with a callback that never stops has not ended after as many
iterations as there are elements left. -/
theorem walkLoop_short (l : SkipList V) (hs : SortedById l) :
    ∀ (suf pre : List (entry V)), l = pre ++ suf →
    ∀ (fuel : Nat), fuel ≤ suf.length →
    ∀ (first : Bool) (prev id : Nat) (visited : List (entry V)),
    (first = false → ∀ e ∈ suf, prev < e.id) →
    walkLoop (always V) l fuel (some pre.length) first prev id visited = none := by
  intro suf
  induction suf with
  | nil =>
    intro pre _ fuel hfuel first prev id visited _
    have : fuel = 0 := by simpa using hfuel
    rw [this, walkLoop_zero]
  | cons e rest ih =>
    intro pre hl fuel hfuel first prev id visited hprev
    cases fuel with
    | zero => exact walkLoop_zero _ _ _ _ _ _ _
    | succ fuel1 =>
      have hget : SkipList.GetValue l (some pre.length) = some e := by
        rw [hl]
        show (pre ++ e :: rest)[pre.length]? = some e
        rw [List.getElem?_append_right (le_refl _)]
        simp
      have hcond : (!first && decide (e.id ≤ prev)) = false := by
        cases first with
        | true => rfl
        | false =>
          have := hprev rfl e (List.mem_cons_self _ _)
          simp; omega
      unfold walkLoop
      simp only [hget, hcond, Bool.false_eq_true, if_false, Option.some_bind, always,
        Bool.not_true]
      cases rest with
      | nil =>
        have : fuel1 = 0 := by simpa using hfuel
        rw [this, walkLoop_zero]
      | cons r rs =>
        subst hl
        rw [SkipList.Next_inner]
        have hlt : ∀ y ∈ r :: rs, e.id < y.id :=
          (List.pairwise_cons.1 (List.pairwise_append.1 hs).2.1).1
        exact ih (pre ++ [e]) (by simp) fuel1 (by simp at hfuel ⊢; omega)
          false e.id e.id _ (fun _ => hlt)

/-- The scan loop of `getFilter` has not ended after as many iterations as there are
elements left. -/
theorem scanLoop_short (test : V → F → Bool) (k : F) (l : SkipList V) (hs : SortedById l) :
    ∀ (suf pre : List (entry V)), l = pre ++ suf →
    ∀ (fuel : Nat), fuel ≤ suf.length →
    ∀ (first : Bool) (prev : Nat) (set : Bitmap),
    (first = false → ∀ e ∈ suf, prev < e.id) →
    scanLoop test k l fuel (some pre.length) first prev set = none := by
  intro suf
  induction suf with
  | nil =>
    intro pre _ fuel hfuel first prev set _
    have : fuel = 0 := by simpa using hfuel
    rw [this, scanLoop_zero]
  | cons e rest ih =>
    intro pre hl fuel hfuel first prev set hprev
    cases fuel with
    | zero => exact scanLoop_zero _ _ _ _ _ _ _
    | succ fuel1 =>
      have hget : SkipList.GetValue l (some pre.length) = some e := by
        rw [hl]
        show (pre ++ e :: rest)[pre.length]? = some e
        rw [List.getElem?_append_right (le_refl _)]
        simp
      have hcond : (!first && decide (e.id ≤ prev)) = false := by
        cases first with
        | true => rfl
        | false =>
          have := hprev rfl e (List.mem_cons_self _ _)
          simp; omega
      unfold scanLoop
      simp only [hget, hcond, Bool.false_eq_true, if_false, Option.some_bind]
      cases rest with
      | nil =>
        have : fuel1 = 0 := by simpa using hfuel
        rw [this, scanLoop_zero]
      | cons r rs =>
        subst hl
        rw [SkipList.Next_inner]
        have hlt : ∀ y ∈ r :: rs, e.id < y.id :=
          (List.pairwise_cons.1 (List.pairwise_append.1 hs).2.1).1
        exact ih (pre ++ [e]) (by simp) fuel1 (by simp at hfuel ⊢; omega)
          false e.id _ (fun _ => hlt)

/-- C16: with `Next` of the last node being the first node, from every reachable state
and for every starting id, the loop of `Walk` with a visitor that never stops and the
scan loop of `getFilter` end: with `m` elements of an id of at least the start, they have
not ended after `m` iterations when `m > 0`, and after any larger number of iterations
they have ended, the walk having visited exactly these elements, each once and in
ascending order, and the scan having tested exactly these elements. The iteration that
ends them is the one on the successor of the last element, which is the first element,
whose id is not greater than the previous one. -/
theorem C16_traversal_terminates (test : V → F → Bool) (n : Int) (sf : SkipFilter V F)
    (h : Reachable test n sf) (start : Nat) (k : F) (set : Bitmap) :
    (∃ ret, ∀ fuel, (sf.list.filter (fun e => decide (start ≤ e.id))).length < fuel →
      walkLoop (always V) sf.list fuel
        (SkipList.FindGreaterOrEqual sf.list (toFloat64 start)) true 0 start []
        = some (ret, sf.list.filter (fun e => decide (start ≤ e.id)))) ∧
    (∀ fuel, (sf.list.filter (fun e => decide (start ≤ e.id))).length < fuel →
      scanLoop test k sf.list fuel
        (SkipList.FindGreaterOrEqual sf.list (toFloat64 start)) true 0 set
        = some (scanRef test k (sf.list.filter (fun e => decide (start ≤ e.id))) set)) ∧
    (sf.list.filter (fun e => decide (start ≤ e.id)) ≠ [] →
      ∀ fuel, fuel ≤ (sf.list.filter (fun e => decide (start ≤ e.id))).length →
        walkLoop (always V) sf.list fuel
          (SkipList.FindGreaterOrEqual sf.list (toFloat64 start)) true 0 start [] = none ∧
        scanLoop test k sf.list fuel
          (SkipList.FindGreaterOrEqual sf.list (toFloat64 start)) true 0 set = none) ∧
    SortedById (sf.list.filter (fun e => decide (start ≤ e.id))) ∧
    (∀ pre last, sf.list = pre ++ [last] →
      SkipList.Next sf.list pre.length = some 0 ∧
      ∃ head, SkipList.GetValue sf.list (some 0) = some head ∧ head.id ≤ last.id) := by
  obtain ⟨hinv, -⟩ := h.inv
  have hsorted := hinv.sorted
  refine ⟨?_, ?_, ?_, List.Pairwise.sublist (List.filter_sublist _) hsorted, ?_⟩
  · rcases traversal_start sf.list hsorted hinv.exact start with
      ⟨h1, h2⟩ | ⟨pre, suf, h1, h2, h3, h4⟩
    · refine ⟨start, ?_⟩
      intro fuel hfuel
      obtain ⟨fuel1, rfl⟩ : ∃ m, fuel = m + 1 := ⟨fuel - 1, by omega⟩
      rw [h1, h2, walkLoop_nil]
    · refine ⟨(walkRef (always V) suf 0 []).1, ?_⟩
      intro fuel hfuel
      rw [h4] at hfuel
      rw [h1, h4, walkLoop_spec (always V) sf.list hsorted suf pre h2 h3 fuel hfuel true 0
        start [] (fun hf => by cases hf)]
      have := walkRef_always suf 0 []
      simp only [List.nil_append] at this
      simp only [Option.some.injEq]
      exact Prod.ext rfl this
  · intro fuel hfuel
    rcases traversal_start sf.list hsorted hinv.exact start with
      ⟨h1, h2⟩ | ⟨pre, suf, h1, h2, h3, h4⟩
    · obtain ⟨fuel1, rfl⟩ : ∃ m, fuel = m + 1 := ⟨fuel - 1, by omega⟩
      rw [h1, h2, scanLoop_nil, scanRef_nil]
    · rw [h4] at hfuel
      rw [h1, h4]
      exact scanLoop_spec test k sf.list hsorted suf pre h2 h3 fuel hfuel true 0 set
        (fun hf => by cases hf)
  · intro hne fuel hfuel
    rcases traversal_start sf.list hsorted hinv.exact start with
      ⟨h1, h2⟩ | ⟨pre, suf, h1, h2, h3, h4⟩
    · exact absurd h2 hne
    · rw [h4] at hfuel
      rw [h1]
      exact ⟨walkLoop_short sf.list hsorted suf pre h2 fuel hfuel true 0 start []
          (fun hf => by cases hf),
        scanLoop_short test k sf.list hsorted suf pre h2 fuel hfuel true 0 set
          (fun hf => by cases hf)⟩
  · intro pre last hl
    rw [hl]
    refine ⟨SkipList.Next_last pre last, ?_⟩
    obtain ⟨x, hx0, hxl⟩ := SkipList.head_exists (pre ++ [last]) (by simp)
    exact ⟨x, hx0, SortedById.le_last (hl ▸ hsorted) x hxl⟩

theorem C16_traversal_terminates_witness :
    (∃ ret, ∀ fuel, (stateSingle.list.filter (fun e => decide (0 ≤ e.id))).length < fuel →
      walkLoop (always Nat) stateSingle.list fuel
        (SkipList.FindGreaterOrEqual stateSingle.list (toFloat64 0)) true 0 0 []
        = some (ret, stateSingle.list.filter (fun e => decide (0 ≤ e.id)))) ∧
    (∀ fuel, (stateSingle.list.filter (fun e => decide (0 ≤ e.id))).length < fuel →
      scanLoop divides 5 stateSingle.list fuel
        (SkipList.FindGreaterOrEqual stateSingle.list (toFloat64 0)) true 0 []
        = some (scanRef divides 5 (stateSingle.list.filter (fun e => decide (0 ≤ e.id))) [])) ∧
    (stateSingle.list.filter (fun e => decide (0 ≤ e.id)) ≠ [] →
      ∀ fuel, fuel ≤ (stateSingle.list.filter (fun e => decide (0 ≤ e.id))).length →
        walkLoop (always Nat) stateSingle.list fuel
          (SkipList.FindGreaterOrEqual stateSingle.list (toFloat64 0)) true 0 0 [] = none ∧
        scanLoop divides 5 stateSingle.list fuel
          (SkipList.FindGreaterOrEqual stateSingle.list (toFloat64 0)) true 0 [] = none) ∧
    SortedById (stateSingle.list.filter (fun e => decide (0 ≤ e.id))) ∧
    (∀ pre last, stateSingle.list = pre ++ [last] →
      SkipList.Next stateSingle.list pre.length = some 0 ∧
      ∃ head, SkipList.GetValue stateSingle.list (some 0) = some head ∧ head.id ≤ last.id) :=
  C16_traversal_terminates divides 10 stateSingle reachable_stateSingle 0 5 []

end Termination

section History
variable {V F : Type} [DecidableEq V] [DecidableEq F]

/-! ## The history of the match sets -/

theorem insertedElems_cons {sf sf1 : SkipFilter V F} (op : Op V F) (ops : List (Op V F))
    (hs : step sf op = some sf1) :
    (∃ v, op = .add v ∧
      insertedElems sf (op :: ops) = { id := sf.i, val := v } :: insertedElems sf1 ops) ∨
    ((∀ v, op ≠ .add v) ∧ insertedElems sf (op :: ops) = insertedElems sf1 ops) := by
  cases op with
  | add v => exact Or.inl ⟨v, rfl, by simp [insertedElems, hs]⟩
  | remove v => exact Or.inr ⟨(fun _ hv => nomatch hv), by simp [insertedElems, hs]⟩
  | matchAny ks => exact Or.inr ⟨(fun _ hv => nomatch hv), by simp [insertedElems, hs]⟩
  | walk start callback =>
    exact Or.inr ⟨(fun _ hv => nomatch hv), by simp [insertedElems, hs]⟩
  | getFilter k => exact Or.inr ⟨(fun _ hv => nomatch hv), by simp [insertedElems, hs]⟩
  | evict k => exact Or.inr ⟨(fun _ hv => nomatch hv), by simp [insertedElems, hs]⟩

theorem insertedElems_ids (ops : List (Op V F)) :
    ∀ (sf : SkipFilter V F), (insertedElems sf ops).map entry.id = assignedIds sf ops := by
  induction ops with
  | nil => intro sf; rfl
  | cons op ops ih =>
    intro sf
    unfold insertedElems assignedIds
    cases hs : step sf op with
    | none => rfl
    | some sf1 =>
      cases op <;> simp [ih]

/-- Over a sequence of steps, the elements of the ordered index and the ids of the match
sets come from the elements that were there or have been inserted. -/
theorem history_spec (ops : List (Op V F)) :
    ∀ {sf sf' : SkipFilter V F} (hist : List (entry V)), Inv sf →
    sf.i + countAdds ops < idLimit →
    (∀ e ∈ sf.list, e ∈ hist) →
    (∀ k f, sf.cache.GetIfPresent k = some f →
      ∀ id ∈ f.set, ∃ e ∈ hist, e.id = id ∧ sf.test e.val k = true) →
    run sf ops = some sf' →
    (∀ e ∈ sf'.list, e ∈ hist ++ insertedElems sf ops) ∧
    (∀ k f, sf'.cache.GetIfPresent k = some f →
      ∀ id ∈ f.set, ∃ e ∈ hist ++ insertedElems sf ops, e.id = id ∧ sf.test e.val k = true) := by
  induction ops with
  | nil =>
    intro sf sf' hist _ _ hlist hcache hr
    simp only [run, Option.some.injEq] at hr
    subst hr
    simpa [insertedElems] using And.intro hlist hcache
  | cons op ops ih =>
    intro sf sf' hist h hb hlist hcache hr
    have hc := countAdds_cons op ops
    rw [hc] at hb
    obtain ⟨sf1, hs, hinv, ht, hi⟩ := step_spec h op (by omega)
    unfold run at hr
    rw [hs] at hr
    have hstepc := step_cache h op hs
    have hcache1 : ∀ (hist1 : List (entry V)), (∀ e ∈ hist, e ∈ hist1) →
        ∀ k f, sf1.cache.GetIfPresent k = some f →
        ∀ id ∈ f.set, ∃ e ∈ hist1, e.id = id ∧ sf1.test e.val k = true := by
      intro hist1 hsub k f1 hf1 id hid
      rw [ht]
      rcases hstepc k f1 hf1 with ⟨f, hf, -, hsubset⟩ | ⟨-, horig⟩
      · obtain ⟨e, he, heid, hte⟩ := hcache k f hf id (hsubset id hid)
        exact ⟨e, hsub e he, heid, hte⟩
      · rcases horig id hid with ⟨f, hf, hidf⟩ | ⟨e, he, heid, hte⟩
        · obtain ⟨e, he, heid, hte⟩ := hcache k f hf id hidf
          exact ⟨e, hsub e he, heid, hte⟩
        · exact ⟨e, hsub e (hlist e he), heid, hte⟩
    rcases insertedElems_cons op ops hs with ⟨v, rfl, hins⟩ | ⟨hnot, hins⟩
    · simp only [step, Option.some.injEq] at hs
      subst hs
      have hlist1 : ∀ e ∈ (Add sf v).list, e ∈ hist ++ [{ id := sf.i, val := v }] := by
        rw [Add_list h]
        intro e he
        rcases List.mem_append.1 he with he | he
        · exact List.mem_append_left _ (hlist e he)
        · exact List.mem_append_right _ he
      have := ih (hist ++ [{ id := sf.i, val := v }]) hinv (by omega) hlist1
        (hcache1 _ (fun e he => List.mem_append_left _ he)) hr
      rw [hins]
      simpa [ht] using this
    · have hlist1 : ∀ e ∈ sf1.list, e ∈ hist := by
        rcases step_frame h op hs with ⟨v, rfl⟩ | ⟨v, rfl⟩ | ⟨hl, -⟩
        · exact absurd rfl (hnot v)
        · simp only [step, Option.some.injEq] at hs
          subst hs
          intro e he
          apply hlist
          cases hget : mapGet sf.idx v with
          | none => rw [Remove_of_none hget] at he; exact he
          | some id =>
            rw [Remove_list h hget] at he
            exact List.mem_of_mem_filter he
        · rw [hl]; exact hlist
      have := ih hist hinv (by omega) hlist1 (hcache1 hist (fun e he => he)) hr
      rw [hins]
      simpa [ht] using this

/-- C17: in every state reached from `New` by a sequence of steps, for every entry of the
filter cache and its key, every id in the match set is below the high-water mark and is
the id of an element that an `Add` of the sequence has inserted with a value that passes
the test for the key; so every element of the ordered index whose id is in the match
set passes the test. The inserted elements have the ids 0, 1, 2, ... -/
theorem C17_match_set_sound (test : V → F → Bool) (n : Int) (ops : List (Op V F))
    (sf : SkipFilter V F) (hb : countAdds ops < idLimit)
    (hr : run (New test n) ops = some sf) (k : F) (f : filter)
    (hget : sf.cache.GetIfPresent k = some f) :
    (∀ id ∈ f.set, id < f.i ∧
      ∃ e ∈ insertedElems (New test n) ops, e.id = id ∧ test e.val k = true) ∧
    (∀ e ∈ sf.list, e.id ∈ f.set → test e.val k = true) ∧
    (∀ e ∈ sf.list, e ∈ insertedElems (New test n) ops) ∧
    (insertedElems (New test n) ops).map entry.id = List.range (countAdds ops) := by
  have hb0 : (New test n).i + countAdds ops < idLimit := by rw [New_i]; omega
  obtain ⟨hinv, ht⟩ := Reachable.inv ⟨ops, hb, hr⟩
  have hok := hinv.cache_ok k f (mapGet_mem _ _ _ hget)
  obtain ⟨hlist, hcache⟩ := history_spec ops [] (Inv_New test n) hb0
    (by intro e he; simp [New, SkipList.New] at he)
    (by intro k f hf; simp [New, Cache.GetIfPresent, mapGet] at hf) hr
  simp only [List.nil_append] at hlist hcache
  refine ⟨?_, ?_, hlist, ?_⟩
  · intro id hid
    exact ⟨hok.lt id hid, hcache k f hget id hid⟩
  · intro e he hid
    rw [← ht]
    exact hok.sound e he hid
  · rw [insertedElems_ids, assignedIds_spec ops (Inv_New test n) hb0, New_i,
      List.range_eq_range']

theorem C17_match_set_sound_witness :
    countAdds ([.add 2, .add 3, .add 4, .matchAny [2], .remove 2] : List (Op Nat Nat))
      < idLimit ∧
    run (New divides 10) [.add 2, .add 3, .add 4, .matchAny [2], .remove 2]
      = some stateRemoved ∧
    stateRemoved.cache.GetIfPresent 2 = some { i := 3, set := [0, 2] } ∧
    ((∀ id ∈ ({ i := 3, set := [0, 2] } : filter).set,
      id < ({ i := 3, set := [0, 2] } : filter).i ∧
      ∃ e ∈ insertedElems (New divides 10)
          [.add 2, .add 3, .add 4, .matchAny [2], .remove 2],
        e.id = id ∧ divides e.val 2 = true) ∧
    (∀ e ∈ stateRemoved.list, e.id ∈ ({ i := 3, set := [0, 2] } : filter).set →
      divides e.val 2 = true) ∧
    (∀ e ∈ stateRemoved.list, e ∈ insertedElems (New divides 10)
      [.add 2, .add 3, .add 4, .matchAny [2], .remove 2]) ∧
    (insertedElems (New divides 10)
        [.add 2, .add 3, .add 4, .matchAny [2], .remove 2]).map entry.id
      = List.range (countAdds
          ([.add 2, .add 3, .add 4, .matchAny [2], .remove 2] : List (Op Nat Nat)))) :=
  ⟨by decide, by rfl, by decide,
   C17_match_set_sound divides 10 [.add 2, .add 3, .add 4, .matchAny [2], .remove 2]
     stateRemoved (by decide) (by rfl) 2 { i := 3, set := [0, 2] } (by decide)⟩

end History

section OrderResume
variable {V F : Type} [DecidableEq V] [DecidableEq F]

/-! ## The order of the results -/

/-- C18: from every reachable state and for all keys, `MatchAny` returns the values of
the elements of the ordered index that pass the test for one of the keys, in the order of
the index, which is strictly ascending in the id, each element once; the values do not
depend on how often or in which order a key is given; `getValues` returns the values in
that order for an ascending set of any size, whatever the number of buffers of 512 ids;
and `MatchAny` without keys returns an empty slice. -/
theorem C18_result_order (test : V → F → Bool) (n : Int) (sf : SkipFilter V F)
    (h : Reachable test n sf) (ks : List F) :
    (∃ sf', MatchAny sf ks = some (sf',
      (sf.list.filter (fun e => ks.any (fun k => test e.val k))).map entry.val)) ∧
    SortedById (sf.list.filter (fun e => ks.any (fun k => test e.val k))) ∧
    (sf.list.filter (fun e => ks.any (fun k => test e.val k))).Nodup ∧
    (∀ ks', (∀ k, k ∈ ks' ↔ k ∈ ks) →
      ∃ sf', MatchAny sf ks' = some (sf',
        (sf.list.filter (fun e => ks.any (fun k => test e.val k))).map entry.val)) ∧
    (∀ U : Bitmap, U.Pairwise (· < ·) →
      ∃ notfound, getValues sf U
        = some ((sf.list.filter (fun e => decide (e.id ∈ U))).map entry.val, notfound)) ∧
    (∃ sf', MatchAny sf [] = some (sf', [])) := by
  obtain ⟨hinv, ht⟩ := h.inv
  have hsorted : SortedById (sf.list.filter (fun e => ks.any (fun k => test e.val k))) :=
    List.Pairwise.sublist (List.filter_sublist _) hinv.sorted
  refine ⟨?_, hsorted, hsorted.nodup, ?_, ?_, ?_⟩
  · obtain ⟨sf', hm, -⟩ := MatchAny_spec hinv ks
    rw [ht] at hm
    exact ⟨sf', hm⟩
  · intro ks' hks
    obtain ⟨sf', hm, -⟩ := MatchAny_spec hinv ks'
    rw [ht] at hm
    refine ⟨sf', ?_⟩
    rw [hm]
    have : sf.list.filter (fun e => ks'.any (fun k => test e.val k))
        = sf.list.filter (fun e => ks.any (fun k => test e.val k)) := by
      apply List.filter_congr
      intro e _
      rw [Bool.eq_iff_iff, List.any_eq_true, List.any_eq_true]
      constructor
      · rintro ⟨k, hk, hte⟩; exact ⟨k, (hks k).1 hk, hte⟩
      · rintro ⟨k, hk, hte⟩; exact ⟨k, (hks k).2 hk, hte⟩
    rw [this]
  · intro U hU
    obtain ⟨nf, hv, -⟩ := getValues_spec hinv U hU
    exact ⟨nf, hv⟩
  · obtain ⟨sf', hm, -⟩ := MatchAny_spec hinv []
    refine ⟨sf', ?_⟩
    rw [hm]
    simp

theorem C18_result_order_witness :
    (∃ sf', MatchAny stateAdded [3, 2, 3] = some (sf', [2, 3, 4])) ∧
    SortedById (stateAdded.list.filter
      (fun e => [3, 2, 3].any (fun k => divides e.val k))) ∧
    (stateAdded.list.filter (fun e => [3, 2, 3].any (fun k => divides e.val k))).Nodup ∧
    (∀ ks', (∀ k, k ∈ ks' ↔ k ∈ [3, 2, 3]) →
      ∃ sf', MatchAny stateAdded ks' = some (sf',
        (stateAdded.list.filter
          (fun e => [3, 2, 3].any (fun k => divides e.val k))).map entry.val)) ∧
    (∀ U : Bitmap, U.Pairwise (· < ·) →
      ∃ notfound, getValues stateAdded U
        = some ((stateAdded.list.filter (fun e => decide (e.id ∈ U))).map entry.val,
            notfound)) ∧
    (∃ sf', MatchAny stateAdded [] = some (sf', [])) :=
  C18_result_order divides 10 stateAdded reachable_stateAdded [3, 2, 3]

/-! ## Resuming a walk after more calls of Add -/

theorem addedElems_vals (vs : List V) : ∀ i, (addedElems i vs).map entry.val = vs := by
  induction vs with
  | nil => intro i; rfl
  | cons v vs ih => intro i; simp [addedElems, ih]

theorem addedElems_ge (vs : List V) : ∀ i, ∀ e ∈ addedElems i vs, i ≤ e.id := by
  induction vs with
  | nil => intro i e he; simp [addedElems] at he
  | cons v vs ih =>
    intro i e he
    simp only [addedElems, List.mem_cons] at he
    rcases he with rfl | he
    · exact le_refl _
    · exact Nat.le_of_succ_le (ih (i + 1) e he)

theorem addAll_spec (vs : List V) :
    ∀ {sf : SkipFilter V F}, Inv sf → sf.i + vs.length < idLimit →
    Inv (vs.foldl Add sf) ∧ (vs.foldl Add sf).list = sf.list ++ addedElems sf.i vs ∧
    (vs.foldl Add sf).i = sf.i + vs.length := by
  induction vs with
  | nil => intro sf h _; exact ⟨h, by simp [addedElems], rfl⟩
  | cons v vs ih =>
    intro sf h hb
    simp only [List.length_cons] at hb
    have hb1 : sf.i + 1 < idLimit := by omega
    obtain ⟨hinv, hl, hi⟩ := ih (Inv_Add h hb1 v) (by rw [Add_i hb1]; omega)
    rw [List.foldl_cons]
    refine ⟨hinv, ?_, ?_⟩
    · rw [hl, Add_list h, Add_i hb1]
      simp [addedElems]
    · rw [hi, Add_i hb1]
      simp only [List.length_cons]
      omega

/-- What a walk that never stops returns: `start` when it visits nothing, and the id of
the last element it visits plus 1 otherwise. -/
theorem Walk_always_ret {sf : SkipFilter V F} (h : Inv sf) (start : Nat) :
    ∃ ret, Walk sf start (always V)
        = some (ret, sf.list.filter (fun e => decide (start ≤ e.id))) ∧
      (sf.list.filter (fun e => decide (start ≤ e.id)) = [] → ret = start) ∧
      ∀ last, (sf.list.filter (fun e => decide (start ≤ e.id))).getLast? = some last →
        ret = last.id + 1 := by
  have hw := Walk_spec h start (always V)
  cases hf : sf.list.filter (fun e => decide (start ≤ e.id)) with
  | nil =>
    rw [hf] at hw
    exact ⟨start, hw, fun _ => rfl, fun last hl => by simp at hl⟩
  | cons e rest =>
    rw [hf] at hw
    have := walkRef_true (always V) (e :: rest) 0 [] (fun _ _ _ _ => rfl)
    simp only [List.nil_append] at this
    simp only [this] at hw
    refine ⟨_, hw, fun hnil => by simp at hnil, ?_⟩
    intro last hl
    rw [hl]
    have hmem : last ∈ sf.list := by
      have h1 : last ∈ e :: rest := List.mem_of_getLast?_eq_some hl
      rw [← hf] at h1
      exact List.mem_of_mem_filter h1
    have h1 := h.ids_lt last hmem
    have h2 := h.bound
    show (last.id + 1) % uint64Size = last.id + 1
    apply Nat.mod_eq_of_lt
    unfold idLimit at h2
    unfold uint64Size
    omega

/-- C19: from every reachable state and for every start that is at most the allocator,
a walk that never stops returns an id `c` that is at most the allocator; when no element
has an id of at least `start` it visits nothing and `c` is `start`; and after any further
calls of `Add` (without overflow) the walk from `c` visits exactly the elements these
calls have inserted, in call order, so it is called on exactly their values. -/
theorem C19_resume_after_add (test : V → F → Bool) (n : Int) (sf : SkipFilter V F)
    (h : Reachable test n sf) (start : Nat) (hstart : start ≤ sf.i) :
    ∃ c visited, Walk sf start (always V) = some (c, visited) ∧ c ≤ sf.i ∧
      ((∀ e ∈ sf.list, e.id < start) → visited = [] ∧ c = start) ∧
      ∀ vs : List V, sf.i + vs.length < idLimit →
        ∃ c', Walk (vs.foldl Add sf) c (always V) = some (c', addedElems sf.i vs) ∧
          (addedElems sf.i vs).map entry.val = vs := by
  obtain ⟨hinv, -⟩ := h.inv
  obtain ⟨c, hw, hnil, hlast⟩ := Walk_always_ret hinv start
  have hsortf : SortedById (sf.list.filter (fun e => decide (start ≤ e.id))) :=
    List.Pairwise.sublist (List.filter_sublist _) hinv.sorted
  have hbelow : c ≤ sf.i ∧ ∀ e ∈ sf.list, e.id < c := by
    cases hg : (sf.list.filter (fun e => decide (start ≤ e.id))).getLast? with
    | none =>
      have hempty := List.getLast?_eq_none_iff.1 hg
      rw [hnil hempty]
      refine ⟨hstart, ?_⟩
      intro e he
      by_contra hcon
      have : e ∈ sf.list.filter (fun e => decide (start ≤ e.id)) :=
        List.mem_filter.2 ⟨he, by simp only [decide_eq_true_eq]; omega⟩
      rw [hempty] at this
      simp at this
    | some last =>
      rw [hlast last hg]
      have hmem := List.mem_of_getLast?_eq_some hg
      obtain ⟨hlmem, hge⟩ := List.mem_filter.1 hmem
      simp only [decide_eq_true_eq] at hge
      refine ⟨hinv.ids_lt last hlmem, ?_⟩
      intro e he
      by_cases hes : start ≤ e.id
      · have hef : e ∈ sf.list.filter (fun e => decide (start ≤ e.id)) :=
          List.mem_filter.2 ⟨he, by simpa using hes⟩
        obtain ⟨ys, hys⟩ := List.getLast?_eq_some_iff.1 hg
        rw [hys] at hef hsortf
        have := SortedById.le_last hsortf e hef
        omega
      · omega
  refine ⟨c, _, hw, hbelow.1, ?_, ?_⟩
  · intro hall
    have hempty : sf.list.filter (fun e => decide (start ≤ e.id)) = [] := by
      apply List.filter_eq_nil_iff.2
      intro e he
      have := hall e he
      simp only [decide_eq_true_eq]; omega
    exact ⟨hempty, hnil hempty⟩
  · intro vs hb
    obtain ⟨hinv', hl, -⟩ := addAll_spec vs hinv hb
    obtain ⟨c', hw'⟩ := Walk_always hinv' c
    refine ⟨c', ?_, addedElems_vals vs sf.i⟩
    rw [hw', hl, filter_ge_of_split sf.list (addedElems sf.i vs) c hbelow.2]
    intro e he
    exact le_trans hbelow.1 (addedElems_ge vs sf.i e he)

theorem C19_resume_after_add_witness :
    stateAdded.i ≤ stateAdded.i ∧
    ∃ c visited, Walk stateAdded stateAdded.i (always Nat) = some (c, visited) ∧
      c ≤ stateAdded.i ∧
      ((∀ e ∈ stateAdded.list, e.id < stateAdded.i) → visited = [] ∧ c = stateAdded.i) ∧
      ∀ vs : List Nat, stateAdded.i + vs.length < idLimit →
        ∃ c', Walk (vs.foldl Add stateAdded) c (always Nat)
            = some (c', addedElems stateAdded.i vs) ∧
          (addedElems stateAdded.i vs).map entry.val = vs :=
  ⟨le_refl _, C19_resume_after_add divides 10 stateAdded reachable_stateAdded stateAdded.i
    (le_refl _)⟩

end OrderResume

end Skipfilter
